import Mathlib

/-!
Shallow embedding of the calibre → folder sync tool (koreader-meta-updater).

Strings are modelled as `String`/`List Char`; file modification times as `Int`;
the target folder as an association list from filename to mtime; the sidecar
(`.sdr`) tree as a flat list of sidecar directories, each with its parent path,
its name and its contained metadata files.  The external `calibredb export`
collaborator is a parameter `oracle : Book → Option Int` returning, on success,
the modification time carried by the materialized file (the code moves the
collaborator's output into place with `fs.rename`, which preserves it).
-/

set_option maxRecDepth 10000

namespace KMeta

/-- The double-quote character. -/
def qc : Char := Char.ofNat 34

/-- The backslash character. -/
def bsl : Char := Char.ofNat 92

/-- The apostrophe character. -/
def apo : Char := Char.ofNat 39

/-- The backtick character. -/
def btk : Char := Char.ofNat 96

/-- The opening-brace character. -/
def obr : Char := Char.ofNat 123

/-- The dollar character. -/
def dlr : Char := Char.ofNat 36

/-- JavaScript's whitespace class (the set matched by `\s` and trimmed by
`String.prototype.trim`). -/
def jsWs (c : Char) : Bool :=
  c = ' ' || c = Char.ofNat 9 || c = Char.ofNat 10 || c = Char.ofNat 11 ||
  c = Char.ofNat 12 || c = Char.ofNat 13 || c = Char.ofNat 160 ||
  c = Char.ofNat 0x1680 ||
  (0x2000 ≤ c.toNat && c.toNat ≤ 0x200A) ||
  c = Char.ofNat 0x2028 || c = Char.ofNat 0x2029 ||
  c = Char.ofNat 0x202F || c = Char.ofNat 0x205F ||
  c = Char.ofNat 0x3000 || c = Char.ofNat 0xFEFF

/-- The characters removed by `sanitizeFilename` (template-engine.ts):
`< > : " / \ | ? *`. -/
def bannedChars : List Char := ['<', '>', ':', qc, '/', bsl, '|', '?', '*']

/-- `filename.replace(/[<>:"\/\\|?*]/g, "")`. -/
def removeBanned (l : List Char) : List Char :=
  l.filter (fun c => !(bannedChars.contains c))

mutual

/-- `filename.replace(/\s+/g, " ")`: each maximal whitespace run becomes one
space.  (`collapseWsTail` consumes the remainder of a whitespace run whose
single replacement space has already been emitted.) -/
def collapseWs : List Char → List Char
  | [] => []
  | c :: rest =>
    if jsWs c then ' ' :: collapseWsTail rest
    else c :: collapseWs rest

/-- Continuation of `collapseWs` inside a whitespace run. -/
def collapseWsTail : List Char → List Char
  | [] => []
  | c :: rest =>
    if jsWs c then collapseWsTail rest
    else c :: collapseWs rest

end

/-- `String.prototype.trim`. -/
def trimEnds (l : List Char) : List Char :=
  ((l.dropWhile jsWs).reverse.dropWhile jsWs).reverse

/-- `sanitizeFilename` (template-engine.ts): remove invalid characters,
normalize whitespace, trim, limit to 255 characters. -/
def sanitizeList (l : List Char) : List Char :=
  (trimEnds (collapseWs (removeBanned l))).take 255

/-- String-level wrapper for `sanitizeFilename`. -/
def sanitizeFilename (s : String) : String := String.mk (sanitizeList s.data)

/-- `parseInt(digits, 10)` on a list of decimal digits. -/
def digitsToNat (ds : List Char) : Nat :=
  ds.foldl (fun acc c => 10 * acc + (c.toNat - 48)) 0

/-- Match `/\((\d+)\)$/` at the end of `l`, returning the digit group. -/
def parenDigitsAtEnd (l : List Char) : Option (List Char) :=
  match l.reverse with
  | ')' :: r1 =>
    match r1.takeWhile Char.isDigit, r1.dropWhile Char.isDigit with
    | [], _ => none
    | ds, '(' :: _ => some ds.reverse
    | _, _ => none
  | _ => none

/-- `KOReaderManager.extractIdFromSdrName`: `/\((\d+)\)\.sdr$/`. -/
def extractIdFromSdrName (s : String) : Option Nat :=
  if (".sdr".data).isSuffixOf s.data then
    (parenDigitsAtEnd (s.data.take (s.data.length - 4))).map digitsToNat
  else none

/-- `FileOperations.extractIdFromFilename`: `/\((\d+)\)\.[^.]+$/i`. -/
def extractIdFromFilename (s : String) : Option Nat :=
  match s.data.reverse.takeWhile (fun c => c ≠ '.'),
        s.data.reverse.dropWhile (fun c => c ≠ '.') with
  | [], _ => none
  | _, '.' :: r2 => (parenDigitsAtEnd r2.reverse).map digitsToNat
  | _, _ => none

/-- `extractId` (fix-koreader-metadata script): `/\((\d+)\)\.(?:epub|sdr)$/`,
returning the digit group as a string. -/
def extractId (s : String) : Option String :=
  if (".epub".data).isSuffixOf s.data then
    (parenDigitsAtEnd (s.data.take (s.data.length - 5))).map String.mk
  else if (".sdr".data).isSuffixOf s.data then
    (parenDigitsAtEnd (s.data.take (s.data.length - 4))).map String.mk
  else none

/-- Does the string start with a dot (`extension.startsWith(".")`)? -/
def startsWithDot (s : String) : Bool :=
  match s.data with
  | c :: _ => c = '.'
  | [] => false

/-- `String.prototype.toLowerCase` (over the character list, as the rest of
the embedding). -/
def toLowerStr (s : String) : String := String.mk (s.data.map Char.toLower)

/-- `FileOperations.buildFilenameWithId`. -/
def buildFilenameWithId (baseName : String) (id : Nat) (extension : String) : String :=
  let ext := if startsWithDot extension then extension else "." ++ extension
  baseName ++ " (" ++ toString id ++ ")" ++ ext

/-- `path.extname` on a bare filename: the suffix from the last dot, empty for
names without a dot or with the dot in first position. -/
def extnameList (l : List Char) : List Char :=
  match l.reverse.dropWhile (fun c => c ≠ '.') with
  | '.' :: rest =>
    if rest.length = 0 then []
    else '.' :: (l.reverse.takeWhile (fun c => c ≠ '.')).reverse
  | _ => []

/-- Drop a filename's `path.extname` suffix. -/
def dropExtname (s : String) : String :=
  String.mk (s.data.take (s.data.length - (extnameList s.data).length))

/-- `KOReaderManager.buildSdrNameFromFilename`: remove the extension and add
`.sdr`.  Also the value of `filename.replace(/\.ext$/i, ".sdr")` computed in
`updateKOReaderMetadata`, since `ext` is that filename's own extension. -/
def buildSdrNameFromFilename (filename : String) : String :=
  dropExtname filename ++ ".sdr"

/-- The literal key `["doc_path"]` of the Lua metadata assignment. -/
def docKey : List Char := ['[', qc, 'd', 'o', 'c', '_', 'p', 'a', 't', 'h', qc, ']']

/-- Parse, after the key, the part `\s*=\s*"([^"]+)"` of the regex
`/(\s*\["doc_path"\]\s*=\s*")([^"]+)(")/`.  Returns `(mid, value, rest)` with
`mid` the characters between the key and the value (whitespace, `=`,
whitespace, opening quote). -/
def parseAssign (l : List Char) : Option (List Char × List Char × List Char) :=
  match l.dropWhile jsWs with
  | c1 :: l2 =>
    if c1 = '=' then
      match l2.dropWhile jsWs with
      | c :: l4 =>
        if c = qc then
          match l4.dropWhile (fun x => x ≠ qc) with
          | d :: rest =>
            if d = qc then
              if l4.takeWhile (fun x => x ≠ qc) = [] then none
              else some (l.takeWhile jsWs ++ '=' :: l2.takeWhile jsWs ++ [qc],
                         l4.takeWhile (fun x => x ≠ qc), rest)
            else none
          | [] => none
        else none
      | [] => none
    else none
  | [] => none

/-- Find the leftmost occurrence of the doc_path assignment: returns
`(pre, mid, value, suffix)` with
`content = pre ++ docKey ++ mid ++ value ++ [qc] ++ suffix`. -/
def findDocPath : List Char → Option (List Char × List Char × List Char × List Char)
  | [] => none
  | c :: rest =>
    if (c :: rest).take 12 = docKey then
      match parseAssign ((c :: rest).drop 12) with
      | some (mid, v, suf) => some ([], mid, v, suf)
      | none =>
        match findDocPath rest with
        | some (pre, mid, v, suf) => some (c :: pre, mid, v, suf)
        | none => none
    else
      match findDocPath rest with
      | some (pre, mid, v, suf) => some (c :: pre, mid, v, suf)
      | none => none

/-- ECMAScript `GetSubstitution` for a replacement template with three capture
groups (the behavior of `String.prototype.replace` with a non-global regex):
`$$`, `` $` ``, `$'`, `$&`, `$n`/`$nn` group references (invalid references are
kept literally). -/
def groupRef (k : Nat) (g1 g2 g3 : List Char) : List Char :=
  if k = 1 then g1 else if k = 2 then g2 else g3

/-- ECMAScript `GetSubstitution` (continued): the template scanner itself,
driven by a fuel counter so the recursion is structural (the fuel never runs
out when it starts at the template's length).  When a `$` is followed by no
valid substitution it is kept literally together with the following character
(which, not being `$` itself in those branches, is scanned as a literal
anyway). -/
def substF (g0 g1 g2 g3 bfr aft : List Char) : Nat → List Char → List Char
  | _, [] => []
  | 0, t => t
  | _ + 1, [c] => if c = dlr then [dlr] else [c]
  | fuel + 1, c :: c2 :: r =>
    if c = dlr then
      if c2 = dlr then dlr :: substF g0 g1 g2 g3 bfr aft fuel r
      else if c2 = '&' then g0 ++ substF g0 g1 g2 g3 bfr aft fuel r
      else if c2 = btk then bfr ++ substF g0 g1 g2 g3 bfr aft fuel r
      else if c2 = apo then aft ++ substF g0 g1 g2 g3 bfr aft fuel r
      else if c2.isDigit then
        match r with
        | d2 :: r2 =>
          if d2.isDigit ∧ 1 ≤ 10 * (c2.toNat - 48) + (d2.toNat - 48) ∧
              10 * (c2.toNat - 48) + (d2.toNat - 48) ≤ 3 then
            groupRef (10 * (c2.toNat - 48) + (d2.toNat - 48)) g1 g2 g3 ++
              substF g0 g1 g2 g3 bfr aft fuel r2
          else if 1 ≤ c2.toNat - 48 ∧ c2.toNat - 48 ≤ 3 then
            groupRef (c2.toNat - 48) g1 g2 g3 ++ substF g0 g1 g2 g3 bfr aft fuel (d2 :: r2)
          else dlr :: c2 :: substF g0 g1 g2 g3 bfr aft fuel (d2 :: r2)
        | [] =>
          if 1 ≤ c2.toNat - 48 ∧ c2.toNat - 48 ≤ 3 then
            groupRef (c2.toNat - 48) g1 g2 g3
          else [dlr, c2]
      else dlr :: c2 :: substF g0 g1 g2 g3 bfr aft fuel r
    else c :: substF g0 g1 g2 g3 bfr aft fuel (c2 :: r)

/-- `subst` with enough fuel. -/
def subst (g0 g1 g2 g3 bfr aft : List Char) (t : List Char) : List Char :=
  substF g0 g1 g2 g3 bfr aft t.length t

/-- The maximal whitespace run at the end of a list. -/
def wsSuffix (l : List Char) : List Char := (l.reverse.takeWhile jsWs).reverse

/-- The literal `return {` that `updateDocPath` searches for when the key is
absent. -/
def retBrace : List Char := ['r', 'e', 't', 'u', 'r', 'n', ' ', obr]

/-- `content.indexOf("return {")`. -/
def indexOfRet : List Char → Option Nat
  | [] => if retBrace.isPrefixOf ([] : List Char) then some 0 else none
  | c :: r =>
    if retBrace.isPrefixOf (c :: r) then some 0
    else (indexOfRet r).map (· + 1)

/-- The line inserted when the key is absent:
`` \n    ["doc_path"] = "<newDocPath>", ``. -/
def insertLine (newDocPath : List Char) : List Char :=
  '\n' :: ' ' :: ' ' :: ' ' :: ' ' :: docKey ++ ' ' :: '=' :: ' ' :: qc :: newDocPath ++ qc :: ',' :: []

/-- `KOReaderManager.updateDocPath`: replace the value span of the first
doc_path assignment (with ECMAScript `$`-substitution applied to the spliced
replacement template); otherwise insert a new assignment after
`content.indexOf("return {") + 9`; otherwise return the content unchanged. -/
def updateDocPath (content newDocPath : List Char) : List Char :=
  match findDocPath content with
  | some (pre, mid, v, suf) =>
    let wsb := wsSuffix pre
    let pre0 := pre.take (pre.length - wsb.length)
    let g1 := wsb ++ docKey ++ mid
    let g3 := [qc]
    let g0 := g1 ++ v ++ g3
    pre0 ++ subst g0 g1 v g3 pre0 suf (dlr :: '1' :: (newDocPath ++ [dlr, '3'])) ++ suf
  | none =>
    match indexOfRet content with
    | some i => content.take (i + 9) ++ insertLine newDocPath ++ content.drop (i + 9)
    | none => content

/-- String-level wrapper for `updateDocPath`. -/
def updateDocPathS (content newDocPath : String) : String :=
  String.mk (updateDocPath content.data newDocPath.data)

/-- A catalog record, as read by `CalibreClient.getAllBooks` (the fields the
sync pipeline consumes; the template renderer is kept abstract as a function
`Book → String`). -/
structure Book where
  id : Nat
  title : String
  last_modified : Int
  formats : List String
deriving Repr, DecidableEq

/-- The target folder: an association list from filename to the file's
modification time. -/
abbrev TargetFs := List (String × Int)

/-- `fs.stat` on a target filename. -/
def lookupFile (t : TargetFs) (name : String) : Option Int :=
  match t.find? (fun e => e.1 == name) with
  | some e => some e.2
  | none => none

/-- Place a file at `name` with modification time `m` (overwriting). -/
def setFile (t : TargetFs) (name : String) (m : Int) : TargetFs :=
  if t.any (fun e => e.1 == name) then
    t.map (fun e => if e.1 == name then (name, m) else e)
  else t ++ [(name, m)]

/-- `CalibreSync.bookNeedsUpdate`: true when there is no target file, or the
book's `last_modified` is strictly later than the target's mtime. -/
def bookNeedsUpdate (lm : Int) (t : TargetFs) (name : String) : Bool :=
  match lookupFile t name with
  | none => true
  | some m => lm > m

/-- One `.sdr` sidecar directory: parent path, directory name, and contained
metadata files (filename, content). -/
structure SdrDir where
  parent : String
  name : String
  files : List (String × String)
deriving Repr, DecidableEq

/-- The sidecar tree, flattened to the list of `.sdr` directories the
recursive walk discovers. -/
abbrev SdrFs := List SdrDir

/-- The observable filesystem mutations the run performs, in order. -/
inductive Eff where
  | exportBook (bookId : Nat)
  | writeMeta (sdrParent sdrName metaFile : String)
  | renameSdr (parent oldName newName : String)
  | unlink (target : String)
deriving Repr, DecidableEq, BEq

/-- The fixed preference order over formats in
`CalibreSync.getPreferredFormat`. -/
def formatPreference : List String := ["EPUB", "CBZ", "PDF", "MOBI", "AZW3", "FB2"]

/-- `CalibreSync.getPreferredFormat`: first preferred format that is
available, else the first available format whose lowercased dotted extension
is supported. -/
def getPreferredFormat (supportedExtensions : List String) (availableFormats : List String) :
    Option String :=
  match formatPreference.find? (fun f => availableFormats.contains f) with
  | some f => some f
  | none => availableFormats.find? (fun f => supportedExtensions.contains ("." ++ toLowerStr f))

/-- The `FileOperations` constructor lowercases the configured extensions. -/
def normExts (exts : List String) : List String := exts.map (fun e => toLowerStr e)

/-- The ordered metadata filenames probed by
`KOReaderManager.updateSdrMetadata`. -/
def possibleMetadataFiles : List String :=
  ["metadata.epub.lua", "metadata.pdf.lua", "metadata.cbz.lua",
   "metadata.mobi.lua", "metadata.azw3.lua", "metadata.fb2.lua"]

/-- Look a file up inside a sidecar directory. -/
def lookupAssoc (files : List (String × String)) (k : String) : Option String :=
  match files.find? (fun e => e.1 == k) with
  | some e => some e.2
  | none => none

/-- Rewrite the content of one file inside a sidecar directory. -/
def setAssoc (files : List (String × String)) (k v : String) : List (String × String) :=
  files.map (fun e => if e.1 == k then (e.1, v) else e)

/-- Find a sidecar directory by parent path and name. -/
def findSdrDir (fs : SdrFs) (parent name : String) : Option SdrDir :=
  fs.find? (fun d => d.parent == parent && d.name == name)

/-- `KOReaderManager.updateSdrMetadata`: probe the metadata filenames in order,
patch `doc_path`, write back only when the content changed.  Returns the new
sidecar tree, the performed effects, and the `true`/`false` update flag. -/
def updateSdrMetadata (fs : SdrFs) (parent name : String) (newDocPath : String) :
    SdrFs × List Eff × Bool :=
  match findSdrDir fs parent name with
  | none => (fs, [], false)
  | some d =>
    match possibleMetadataFiles.find? (fun f => (lookupAssoc d.files f).isSome) with
    | none => (fs, [], false)
    | some mf =>
      match lookupAssoc d.files mf with
      | none => (fs, [], false)
      | some content =>
        if updateDocPathS content newDocPath == content then (fs, [], false)
        else
          (fs.map (fun e =>
             if e.parent == parent && e.name == name then
               { e with files := setAssoc e.files mf (updateDocPathS content newDocPath) }
             else e),
           [Eff.writeMeta parent name mf], true)

/-- `fs.rename` of a sidecar directory (same parent). -/
def renameSdrInFs (fs : SdrFs) (parent oldName newName : String) : SdrFs :=
  fs.map (fun d =>
    if d.parent == parent && d.name == oldName then { d with name := newName } else d)

/-- One iteration of the loop in `CalibreSync.updateKOReaderMetadata`: patch
the metadata first (`updateSdrMetadata`), then rename the directory if its
name differs from the expected one (`renameSdrDirectory`). -/
def koStepOne (targetPath filename : String) (acc : SdrFs × List Eff × Bool)
    (key : String × String) : SdrFs × List Eff × Bool :=
  let (fs, effs, upd) := acc
  match findSdrDir fs key.1 key.2 with
  | none => (fs, effs, upd)
  | some d =>
    let (fs1, e1, metaUpdated) := updateSdrMetadata fs key.1 key.2 targetPath
    let expectedSdrName := buildSdrNameFromFilename filename
    if d.name ≠ expectedSdrName then
      let fs2 := renameSdrInFs fs1 key.1 d.name expectedSdrName
      (fs2, effs ++ e1 ++ [Eff.renameSdr key.1 d.name expectedSdrName], true)
    else
      (fs1, effs ++ e1, upd || metaUpdated)

/-- `CalibreSync.updateKOReaderMetadata`: find the `.sdr` directories carrying
the record's id, then process each. -/
def updateKOReaderMetadata (fs : SdrFs) (bookId : Nat) (targetPath filename : String) :
    SdrFs × List Eff × Bool :=
  let keys := (fs.filter (fun d => extractIdFromSdrName d.name == some bookId)).map
    (fun d => (d.parent, d.name))
  keys.foldl (koStepOne targetPath filename) (fs, [], false)

/-- `CalibreClient.exportBook`: on success the collaborator's output is moved
into place with `fs.rename`, so the target file carries the mtime the
collaborator gave it (`oracle`). -/
def exportBookM (oracle : Book → Option Int) (book : Book) (t : TargetFs)
    (fname : String) : TargetFs × Bool :=
  match oracle book with
  | none => (t, false)
  | some m => (setFile t fname m, true)

/-- `FileOperations.shouldCopyFile`: staleness by mtime comparison (source
mtime, target mtime or `none` when absent). -/
def shouldCopyFile (srcM : Int) (tgtM : Option Int) : Bool :=
  match tgtM with
  | none => true
  | some m => srcM > m

/-- `FileOperations.copyBookFile`: copy when stale, then propagate the source
file's timestamps onto the target with `fs.utimes`.  Returns the target's new
mtime and whether a copy happened. -/
def copyBookFile (srcM : Int) (tgtM : Option Int) : Option Int × Bool :=
  if shouldCopyFile srcM tgtM then (some srcM, true) else (tgtM, false)

/-- Is an effect a sidecar reconciliation operation (metadata write or `.sdr`
rename)? -/
def isSdrEff : Eff → Bool
  | Eff.writeMeta _ _ _ => true
  | Eff.renameSdr _ _ _ => true
  | _ => false

/-- One entry of `SyncResult.errors`. -/
structure ErrEntry where
  book : String
  error : String
deriving Repr, DecidableEq

/-- `SyncResult` (types.ts). -/
structure SyncResult where
  processed : Nat
  updated : Nat
  koreaderUpdates : Nat
  errors : List ErrEntry
deriving Repr, DecidableEq

/-- Mutable filesystem state a run acts on. -/
structure RunState where
  target : TargetFs
  sdrs : SdrFs
deriving Repr, DecidableEq

/-- The configuration fields the sync loop consumes. -/
structure Config where
  syncTargetPath : String
  supportedExtensions : List String
deriving Repr

/-- The `"${title} (${id})"` string identifying a record in error entries. -/
def errTag (b : Book) : String := b.title ++ " (" ++ toString b.id ++ ")"

/-- The canonical filename stage of the pipeline: template render, sanitize,
attach the ` (id)` suffix and the lowercased format extension. -/
def filenameFor (render : Book → String) (b : Book) (fmt : String) : String :=
  buildFilenameWithId (sanitizeFilename (render b)) b.id (toLowerStr fmt)

/-- The canonical filename of a record, when it resolves a supported format. -/
def canonName (cfg : Config) (render : Book → String) (b : Book) : Option String :=
  (getPreferredFormat (normExts cfg.supportedExtensions) b.formats).map
    (fun fmt => filenameFor render b fmt)

/-- The per-record body of `CalibreSync.sync`'s loop. -/
def processBook (cfg : Config) (render : Book → String) (oracle : Book → Option Int)
    (acc : RunState × SyncResult × List String × List Eff) (book : Book) :
    RunState × SyncResult × List String × List Eff :=
  let (st, res, kept, effs) := acc
  let res := { res with processed := res.processed + 1 }
  match getPreferredFormat (normExts cfg.supportedExtensions) book.formats with
  | none =>
    (st, { res with errors := res.errors ++ [⟨errTag book, "No supported format found"⟩] },
     kept, effs)
  | some fmt =>
    let filename := filenameFor render book fmt
    let kept := kept ++ [filename]
    if bookNeedsUpdate book.last_modified st.target filename then
      let (t2, ok) := exportBookM oracle book st.target filename
      if ok then
        let targetPath := cfg.syncTargetPath ++ "/" ++ filename
        let (sdrs2, e2, ku) := updateKOReaderMetadata st.sdrs book.id targetPath filename
        (⟨t2, sdrs2⟩,
         { res with updated := res.updated + 1,
                    koreaderUpdates := res.koreaderUpdates + (if ku then 1 else 0) },
         kept, effs ++ [Eff.exportBook book.id] ++ e2)
      else
        (st, { res with errors := res.errors ++ [⟨errTag book, "Export failed"⟩] },
         kept, effs ++ [Eff.exportBook book.id])
    else (st, res, kept, effs)

mutual

/-- A directory tree entry, for the recursive walk of
`FileOperations.findBookFiles`.  (A mutual inductive pair rather than a
nested `List Ent`, so that recursion over it stays structural.) -/
inductive Ent where
  | file (name : String)
  | dir (name : String) (entries : EntList)

/-- The entries of one directory. -/
inductive EntList where
  | nil
  | cons (e : Ent) (rest : EntList)

end

/-- `FileOperations.isSupportedBookFile`. -/
def isSupportedBookFile (exts : List String) (name : String) : Bool :=
  exts.contains (toLowerStr (String.mk (extnameList name.data)))

mutual

/-- `FileOperations.findBookFiles`: recursive walk collecting paths of
supported-extension files (the per-entry step is split off so the recursion
is structural). -/
def findBookFiles (exts : List String) : EntList → List String
  | EntList.nil => []
  | EntList.cons e rest => findBookFilesEnt exts e ++ findBookFiles exts rest

/-- The files contributed by a single directory entry. -/
def findBookFilesEnt (exts : List String) : Ent → List String
  | Ent.file n => if isSupportedBookFile exts n then [n] else []
  | Ent.dir n es => (findBookFiles exts es).map (fun p => n ++ "/" ++ p)

end

/-- A flat directory containing only the given files. -/
def fileEntries : List String → EntList
  | [] => EntList.nil
  | n :: rest => EntList.cons (Ent.file n) (fileEntries rest)

/-- `path.basename`. -/
def basenameStr (p : String) : String :=
  String.mk ((p.data.reverse.takeWhile (fun c => c ≠ '/')).reverse)

/-- `FileOperations.removeObsoleteFiles`: unlink every found book file whose
basename is not in `currentFiles`; returns the list of removed paths. -/
def removeObsoleteFiles (exts : List String) (tree : EntList)
    (currentFiles : List String) : List String :=
  (findBookFiles exts tree).foldl
    (fun removed p => if currentFiles.contains (basenameStr p) then removed else removed ++ [p])
    []

/-- The outcome of one `CalibreSync.sync` run. -/
structure RunOut where
  state : RunState
  result : SyncResult
  kept : List String
  effects : List Eff
deriving Repr

/-- `CalibreSync.sync`: one pass over the records, then cleanup of obsolete
target files. -/
def sync (cfg : Config) (render : Book → String) (oracle : Book → Option Int)
    (books : List Book) (st0 : RunState) : RunOut :=
  let init : RunState × SyncResult × List String × List Eff := (st0, ⟨0, 0, 0, []⟩, [], [])
  let (st, res, kept, effs) := books.foldl (processBook cfg render oracle) init
  let exts := normExts cfg.supportedExtensions
  let tree := fileEntries (st.target.map (fun e => e.1))
  let removed := removeObsoleteFiles exts tree kept
  let target2 := st.target.filter (fun e => !(removed.contains e.1))
  ⟨⟨target2, st.sdrs⟩, res, kept, effs ++ removed.map Eff.unlink⟩

/-! Concrete fixtures used by counterexamples and witnesses. -/

/-- The default configuration's paths and supported extensions. -/
def cfg0 : Config := ⟨"/tgt", [".epub", ".cbz", ".pdf", ".mobi", ".azw3", ".fb2"]⟩

/-- A renderer producing the base name `New`. -/
def renderNew : Book → String := fun _ => "New"

/-- A renderer whose output contains a character the sanitizer strips. -/
def renderColon : Book → String := fun _ => "A:B"

/-- A record with id 1, EPUB available, last modified at time 5. -/
def book1 : Book := ⟨1, "T", 5, ["EPUB"]⟩

/-- A sidecar metadata file content with a stale `doc_path`. -/
def luaOld : String :=
  "return \x7b\n    [\"doc_path\"] = \"/old/Old (1).epub\",\n\x7d"

/-- A sidecar directory for id 1 whose name is stale. -/
def sdrStale : SdrDir := ⟨"ko", "Old (1).sdr", [("metadata.epub.lua", luaOld)]⟩

/-- A state where book 1's target file is current but its sidecar name is
stale. -/
def stFresh : RunState := ⟨[("New (1).epub", 5)], [sdrStale]⟩

/-- A state where book 1's target file is missing and its sidecar name is
stale. -/
def stStale : RunState := ⟨[], [sdrStale]⟩

/-- The empty state. -/
def stEmpty : RunState := ⟨[], []⟩

/-!  Theorems.  -/

theorem find?_map_update (t : TargetFs) (k : String) (m : Int)
    (h : t.any (fun e => e.1 == k) = true) :
    (t.map (fun e => if e.1 == k then (k, m) else e)).find? (fun e => e.1 == k)
      = some (k, m) := by
  induction t with
  | nil => simp at h
  | cons e t ih =>
    by_cases he : (e.1 == k) = true
    · rw [List.map_cons, if_pos he,
        @List.find?_cons_of_pos _ (fun x => x.1 == k) (k, m) _ (by simp)]
    · simp only [List.any_cons, he, Bool.false_or] at h
      rw [List.map_cons, if_neg he,
        @List.find?_cons_of_neg _ (fun x => x.1 == k) e _ he, ih h]

theorem find?_append_none {α : Type} (p : α → Bool) (l1 l2 : List α)
    (h : l1.find? p = none) : (l1 ++ l2).find? p = l2.find? p := by
  induction l1 with
  | nil => simp
  | cons a l ih =>
    by_cases ha : p a = true
    · rw [List.find?_cons_of_pos _ ha] at h
      exact absurd h (by simp)
    · rw [List.find?_cons_of_neg _ ha] at h
      rw [List.cons_append, List.find?_cons_of_neg _ ha]
      exact ih h

theorem lookupFile_setFile_self (t : TargetFs) (k : String) (m : Int) :
    lookupFile (setFile t k m) k = some m := by
  unfold lookupFile setFile
  by_cases h : t.any (fun e => e.1 == k) = true
  · rw [if_pos h, find?_map_update t k m h]
  · rw [if_neg h]
    have hn : t.find? (fun e => e.1 == k) = none := by
      rw [List.find?_eq_none]
      intro e he
      intro hc
      exact h (List.any_eq_true.mpr ⟨e, he, hc⟩)
    rw [find?_append_none _ _ _ hn,
      @List.find?_cons_of_pos _ (fun x => x.1 == k) (k, m) _ (by simp)]

theorem lookupFile_setFile_other (t : TargetFs) (k : String) (m : Int) (k' : String)
    (h : k' ≠ k) : lookupFile (setFile t k m) k' = lookupFile t k' := by
  have hk : (k == k') = false := by
    simp only [beq_eq_false_iff_ne, ne_eq]
    exact fun hh => h hh.symm
  unfold lookupFile setFile
  by_cases ha : t.any (fun e => e.1 == k) = true
  · rw [if_pos ha]
    have : ∀ t' : TargetFs,
        (t'.map (fun e => if e.1 == k then (k, m) else e)).find? (fun e => e.1 == k')
          = t'.find? (fun e => e.1 == k') := by
      intro t'
      induction t' with
      | nil => simp
      | cons e t' ih =>
        by_cases he : (e.1 == k) = true
        · have he' : e.1 = k := by simpa using he
          have hpe : ¬((e.1 == k') = true) := by
            simp only [he', beq_iff_eq]
            exact fun hh => h hh.symm
          rw [List.map_cons, if_pos he,
            @List.find?_cons_of_neg _ (fun x => x.1 == k') (k, m) _ (by simpa using hk),
            @List.find?_cons_of_neg _ (fun x => x.1 == k') e _ hpe, ih]
        · rw [List.map_cons, if_neg he]
          by_cases hpe : (e.1 == k') = true
          · rw [@List.find?_cons_of_pos _ (fun x => x.1 == k') e _ hpe,
              @List.find?_cons_of_pos _ (fun x => x.1 == k') e _ hpe]
          · rw [@List.find?_cons_of_neg _ (fun x => x.1 == k') e _ hpe,
              @List.find?_cons_of_neg _ (fun x => x.1 == k') e _ hpe, ih]
    rw [this]
  · rw [if_neg ha]
    by_cases hf : t.find? (fun e => e.1 == k') = none
    · rw [find?_append_none _ _ _ hf, hf,
        @List.find?_cons_of_neg _ (fun x => x.1 == k') (k, m) _ (by simpa using hk),
        List.find?_nil]
    · obtain ⟨e, he⟩ := Option.ne_none_iff_exists'.mp hf
      have happ : ∀ t' : TargetFs, t'.find? (fun e => e.1 == k') = some e →
          (t' ++ [(k, m)]).find? (fun e => e.1 == k') = some e := by
        intro t'
        induction t' with
        | nil => intro hcontra; simp at hcontra
        | cons a t' ih =>
          intro hsome
          by_cases hpa : (a.1 == k') = true
          · rw [@List.find?_cons_of_pos _ (fun x => x.1 == k') a _ hpa] at hsome
            rw [List.cons_append, @List.find?_cons_of_pos _ (fun x => x.1 == k') a _ hpa]
            exact hsome
          · rw [@List.find?_cons_of_neg _ (fun x => x.1 == k') a _ hpa] at hsome
            rw [List.cons_append, @List.find?_cons_of_neg _ (fun x => x.1 == k') a _ hpa]
            exact ih hsome
      rw [happ t he, he]

theorem removeObsolete_foldl (cur : List String) (l : List String) (acc : List String) :
    l.foldl
      (fun removed p => if cur.contains (basenameStr p) then removed else removed ++ [p])
      acc
      = acc ++ l.filter (fun p => !(cur.contains (basenameStr p))) := by
  induction l generalizing acc with
  | nil => simp
  | cons p l ih =>
    simp only [List.foldl_cons, List.filter_cons]
    cases h : cur.contains (basenameStr p) with
    | true => simpa using ih acc
    | false => simpa using ih (acc ++ [p])

/-- C9: the terminal cleanup deletes exactly the supported-format files whose
basename is not in the kept set: membership characterization over any target
tree, plus the spec's `{A,B,C}` / `{A,C}` example where exactly `B.epub` is
removed. -/
theorem C9_cleanup_set_difference :
    (∀ (exts : List String) (tree : EntList) (cur : List String) (p : String),
        p ∈ removeObsoleteFiles exts tree cur ↔
          (p ∈ findBookFiles exts tree ∧ ¬ basenameStr p ∈ cur)) ∧
    removeObsoleteFiles [".epub"]
        (fileEntries ["A.epub", "B.epub", "C.epub"])
        ["A.epub", "C.epub"] = ["B.epub"] := by
  constructor
  · intro exts tree cur p
    unfold removeObsoleteFiles
    rw [removeObsolete_foldl]
    simp [List.mem_filter]
  · decide

/-- C8: identity extraction: the last parenthesized decimal run immediately
preceding the suffix wins, absence gives `none` (callers skip silently —
the extractors are total functions into `Option`), across all three extractor
variants in the code base. -/
theorem C8_identity_extraction :
    extractIdFromFilename "Foundation (42).epub" = some 42 ∧
    extractIdFromFilename "No Id Here.epub" = none ∧
    extractIdFromFilename "Weird (12) (34).sdr" = some 34 ∧
    extractIdFromSdrName "Weird (12) (34).sdr" = some 34 ∧
    extractIdFromSdrName "No Id Here.sdr" = none ∧
    extractId "Foundation (42).epub" = some "42" ∧
    extractId "No Id Here.epub" = none ∧
    extractId "Weird (12) (34).sdr" = some "34" := by
  refine ⟨?_, ?_, ?_, ?_, ?_, ?_, ?_, ?_⟩ <;> decide

/-- `collapseWsTail` is `collapseWs` after skipping the whitespace run. -/
theorem collapseWsTail_eq (l : List Char) :
    collapseWsTail l = collapseWs (l.dropWhile jsWs) := by
  induction l with
  | nil => rfl
  | cons c rest ih =>
    by_cases h : jsWs c = true
    · rw [show collapseWsTail (c :: rest) = collapseWsTail rest by
        simp [collapseWsTail, h], ih, List.dropWhile_cons_of_pos h]
    · have h' : jsWs c = false := by simpa using h
      rw [show collapseWsTail (c :: rest) = c :: collapseWs rest by
        simp [collapseWsTail, h'], List.dropWhile_cons_of_neg h]
      simp [collapseWs, h']

/-- Characters of the collapsed list are spaces or original characters. -/
theorem mem_collapse_both (l : List Char) :
    (∀ c ∈ collapseWs l, c = ' ' ∨ c ∈ l) ∧
    (∀ c ∈ collapseWsTail l, c = ' ' ∨ c ∈ l) := by
  induction l with
  | nil =>
    constructor <;> intro c hc <;> simp [collapseWs, collapseWsTail] at hc
  | cons a rest ih =>
    by_cases h : jsWs a = true
    · constructor
      · intro c hc
        rw [show collapseWs (a :: rest) = ' ' :: collapseWsTail rest by
          simp [collapseWs, h]] at hc
        rcases List.mem_cons.mp hc with hc | hc
        · exact Or.inl hc
        · exact (ih.2 c hc).imp id (List.mem_cons_of_mem a)
      · intro c hc
        rw [show collapseWsTail (a :: rest) = collapseWsTail rest by
          simp [collapseWsTail, h]] at hc
        exact (ih.2 c hc).imp id (List.mem_cons_of_mem a)
    · have h' : jsWs a = false := by simpa using h
      constructor
      · intro c hc
        rw [show collapseWs (a :: rest) = a :: collapseWs rest by
          simp [collapseWs, h']] at hc
        rcases List.mem_cons.mp hc with hc | hc
        · exact Or.inr (hc ▸ List.mem_cons_self a rest)
        · exact (ih.1 c hc).imp id (List.mem_cons_of_mem a)
      · intro c hc
        rw [show collapseWsTail (a :: rest) = a :: collapseWs rest by
          simp [collapseWsTail, h']] at hc
        rcases List.mem_cons.mp hc with hc | hc
        · exact Or.inr (hc ▸ List.mem_cons_self a rest)
        · exact (ih.1 c hc).imp id (List.mem_cons_of_mem a)

/-- No two adjacent characters of the collapsed list are both whitespace. -/
theorem chain_collapse_both (l : List Char) :
    List.Chain' (fun a b => ¬(jsWs a = true ∧ jsWs b = true)) (collapseWs l) ∧
    List.Chain' (fun a b => ¬(jsWs a = true ∧ jsWs b = true)) (collapseWsTail l) ∧
    (∀ c ∈ (collapseWsTail l).head?, jsWs c = false) := by
  induction l with
  | nil => refine ⟨by simp [collapseWs], by simp [collapseWsTail], by simp [collapseWsTail]⟩
  | cons a rest ih =>
    obtain ⟨ihA, ihB, ihC⟩ := ih
    by_cases h : jsWs a = true
    · have e1 : collapseWs (a :: rest) = ' ' :: collapseWsTail rest := by simp [collapseWs, h]
      have e2 : collapseWsTail (a :: rest) = collapseWsTail rest := by simp [collapseWsTail, h]
      refine ⟨?_, ?_, ?_⟩
      · rw [e1, List.chain'_cons']
        refine ⟨?_, ihB⟩
        intro y hy
        have := ihC y hy
        simp [this]
      · rw [e2]; exact ihB
      · rw [e2]; exact ihC
    · have h' : jsWs a = false := by simpa using h
      have e1 : collapseWs (a :: rest) = a :: collapseWs rest := by simp [collapseWs, h']
      have e2 : collapseWsTail (a :: rest) = a :: collapseWs rest := by simp [collapseWsTail, h']
      refine ⟨?_, ?_, ?_⟩
      · rw [e1, List.chain'_cons']
        exact ⟨fun y _ => by simp [h'], ihA⟩
      · rw [e2, List.chain'_cons']
        exact ⟨fun y _ => by simp [h'], ihA⟩
      · rw [e2]
        intro c hc
        simp only [List.head?_cons, Option.mem_def, Option.some.injEq] at hc
        exact hc ▸ h'

/-- `Chain'` of a symmetric-in-conjunction relation survives reversal. -/
theorem chainR_reverse (l : List Char)
    (h : List.Chain' (fun a b => ¬(jsWs a = true ∧ jsWs b = true)) l) :
    List.Chain' (fun a b => ¬(jsWs a = true ∧ jsWs b = true)) l.reverse := by
  rw [List.chain'_reverse]
  exact h.imp (fun a b hab => fun hba => hab ⟨hba.2, hba.1⟩)

/-- C10: every output of `sanitizeFilename` is free of the banned characters,
has no two adjacent whitespace characters, and is at most 255 characters long;
and the sync pipeline applies it to every rendered base name before the id
suffix is attached. -/
theorem C10_sanitize_invariants :
    ∀ s : String,
      (∀ c ∈ (sanitizeFilename s).data, ¬ c ∈ bannedChars) ∧
      List.Chain' (fun a b => ¬(jsWs a = true ∧ jsWs b = true)) (sanitizeFilename s).data ∧
      (sanitizeFilename s).data.length ≤ 255 ∧
      (∀ (render : Book → String) (b : Book) (fmt : String),
        filenameFor render b fmt
          = buildFilenameWithId (sanitizeFilename (render b)) b.id (toLowerStr fmt)) := by
  intro s
  have hdata : (sanitizeFilename s).data = sanitizeList s.data := rfl
  refine ⟨?_, ?_, ?_, fun render b fmt => rfl⟩
  · intro c hc hb
    rw [hdata] at hc
    unfold sanitizeList trimEnds at hc
    have hc1 := List.take_subset _ _ hc
    have hc2 := List.mem_reverse.mp hc1
    have hc3 := (List.dropWhile_suffix jsWs).subset hc2
    have hc4 := List.mem_reverse.mp hc3
    have hc5 := (List.dropWhile_suffix jsWs).subset hc4
    rcases (mem_collapse_both (removeBanned s.data)).1 c hc5 with hsp | hmem
    · rw [hsp] at hb
      simp [bannedChars, qc, bsl] at hb
    · have hf := (List.mem_filter.mp hmem).2
      simp only [Bool.not_eq_true'] at hf
      have ht : bannedChars.contains c = true := List.elem_eq_true_of_mem hb
      rw [ht] at hf
      cases hf
  · rw [hdata]
    unfold sanitizeList trimEnds
    have h0 := (chain_collapse_both (removeBanned s.data)).1
    have h1 := h0.suffix (List.dropWhile_suffix jsWs)
    have h2 := chainR_reverse _ h1
    have h3 := h2.suffix (List.dropWhile_suffix jsWs)
    have h4 := chainR_reverse _ h3
    have h5 := List.take_append_drop 255
      (((((collapseWs (removeBanned s.data)).dropWhile jsWs).reverse.dropWhile jsWs)).reverse)
    exact List.Chain'.left_of_append (h5 ▸ h4)
  · rw [hdata]
    unfold sanitizeList
    rw [List.length_take]
    exact min_le_left _ _

/-- C6 counterexample: a rendered base name containing `:` is altered by the
sanitizer, so the canonical filename is not `render(record) + " (id)." + ext`. -/
theorem C6_counterexample :
    filenameFor renderColon ⟨7, "t", 0, ["EPUB"]⟩ "EPUB" = "AB (7).epub" ∧
    filenameFor renderColon ⟨7, "t", 0, ["EPUB"]⟩ "EPUB"
      ≠ renderColon ⟨7, "t", 0, ["EPUB"]⟩ ++ " (" ++ toString (7 : Nat) ++ ")" ++ "."
          ++ "epub" := by
  constructor <;> decide

/-- C6 (amended): the canonical filename is
`sanitizeFilename(render(record)) + " (id)." + lowercased extension`; it equals
the original claim's formula exactly when sanitization leaves the rendered
name unchanged. -/
theorem C6_canonical_name (render : Book → String) (b : Book) (fmt : String)
    (hsan : sanitizeFilename (render b) = render b)
    (hdot : startsWithDot (toLowerStr fmt) = false) :
    filenameFor render b fmt
      = render b ++ " (" ++ toString b.id ++ ")" ++ "." ++ toLowerStr fmt := by
  unfold filenameFor buildFilenameWithId
  rw [hsan, hdot]
  rw [if_neg (by simp)]
  simp only [String.append_assoc]

/-- Witness for `C6_canonical_name` at a concrete clean input. -/
theorem C6_canonical_name_witness :
    filenameFor (fun _ => "Clean") ⟨3, "t", 0, ["EPUB"]⟩ "EPUB"
      = "Clean" ++ " (" ++ toString ((⟨3, "t", 0, ["EPUB"]⟩ : Book)).id ++ ")" ++ "."
          ++ toLowerStr "EPUB" :=
  C6_canonical_name (fun _ => "Clean") ⟨3, "t", 0, ["EPUB"]⟩ "EPUB" (by decide) (by decide)

/-- C4: a successful materialization leaves the target file carrying the
collaborator-preserved source timestamp (`exportBook` moves the exported file
into place with `fs.rename`), so the staleness check immediately afterwards
reports no refresh needed; and `copyBookFile` explicitly stamps the source
mtime onto the copy (`fs.utimes`), with the same consequence. -/
theorem C4_timestamp_preserved (oracle : Book → Option Int) (b : Book)
    (t : TargetFs) (fname : String) (h : oracle b = some b.last_modified) :
    (exportBookM oracle b t fname).2 = true ∧
    lookupFile (exportBookM oracle b t fname).1 fname = some b.last_modified ∧
    bookNeedsUpdate b.last_modified (exportBookM oracle b t fname).1 fname = false ∧
    (∀ (srcM : Int) (tgtM : Option Int),
      shouldCopyFile srcM (copyBookFile srcM tgtM).1 = false) := by
  unfold exportBookM
  rw [h]
  refine ⟨rfl, lookupFile_setFile_self t fname b.last_modified, ?_, ?_⟩
  · unfold bookNeedsUpdate
    rw [lookupFile_setFile_self]
    simp
  · intro srcM tgtM
    unfold copyBookFile
    by_cases hs : shouldCopyFile srcM tgtM = true
    · rw [if_pos hs]
      unfold shouldCopyFile
      simp
    · rw [if_neg hs]
      simpa using hs

/-- Witness for `C4_timestamp_preserved` at a concrete input. -/
theorem C4_timestamp_preserved_witness :
    (exportBookM (fun _ => some 5) book1 [] "New (1).epub").2 = true ∧
    lookupFile (exportBookM (fun _ => some 5) book1 [] "New (1).epub").1 "New (1).epub"
      = some book1.last_modified ∧
    bookNeedsUpdate book1.last_modified
      (exportBookM (fun _ => some 5) book1 [] "New (1).epub").1 "New (1).epub" = false ∧
    (∀ (srcM : Int) (tgtM : Option Int),
      shouldCopyFile srcM (copyBookFile srcM tgtM).1 = false) :=
  C4_timestamp_preserved (fun _ => some 5) book1 [] "New (1).epub" rfl

/-- A directory found by `findSdrDir` carries the searched parent and name. -/
theorem findSdrDir_name (fs : SdrFs) (parent name : String) (d : SdrDir)
    (h : findSdrDir fs parent name = some d) : d.parent = parent ∧ d.name = name := by
  have hp := List.find?_some h
  simp only [Bool.and_eq_true, beq_iff_eq] at hp
  exact hp

/-- Effects of `updateSdrMetadata` are metadata writes at the given sidecar
directory. -/
theorem updateSdrMetadata_effects (fs : SdrFs) (parent name dp : String) :
    ∀ e ∈ (updateSdrMetadata fs parent name dp).2.1,
      ∃ mf, e = Eff.writeMeta parent name mf := by
  intro e he
  unfold updateSdrMetadata at he
  split at he
  · simp at he
  · split at he
    · simp at he
    · split at he
      · simp at he
      · split at he
        · simp at he
        · simp only [List.mem_singleton] at he
          exact ⟨_, he⟩

/-- C3 (amended): for each sidecar entry processed by the reconciler, the
`doc_path` patch is applied first, against the entry's current (pre-rename)
location, and only afterwards is the directory renamed (when its name differs
from the canonical name). -/
theorem C3_patch_then_rename (targetPath filename : String) (fs : SdrFs)
    (effs : List Eff) (upd : Bool) (key : String × String) :
    ∃ w r, (koStepOne targetPath filename (fs, effs, upd) key).2.1 = effs ++ w ++ r ∧
      (∀ e ∈ w, ∃ mf, e = Eff.writeMeta key.1 key.2 mf) ∧
      (∀ e ∈ r, e = Eff.renameSdr key.1 key.2 (buildSdrNameFromFilename filename)) := by
  unfold koStepOne
  rcases hfd : findSdrDir fs key.1 key.2 with _ | d
  · refine ⟨[], [], ?_, by simp, by simp⟩
    simp [hfd]
  · obtain ⟨hdp, hdn⟩ := findSdrDir_name fs key.1 key.2 d hfd
    rcases hu : updateSdrMetadata fs key.1 key.2 targetPath with ⟨fs1, e1, mu⟩
    have he1 : ∀ e ∈ e1, ∃ mf, e = Eff.writeMeta key.1 key.2 mf := by
      intro e he
      exact updateSdrMetadata_effects fs key.1 key.2 targetPath e (by rw [hu]; exact he)
    by_cases hne : d.name = buildSdrNameFromFilename filename
    · refine ⟨e1, [], ?_, he1, by simp⟩
      simp [hfd, hu, hne]
    · refine ⟨e1, [Eff.renameSdr key.1 d.name (buildSdrNameFromFilename filename)],
        ?_, he1, ?_⟩
      · simp [hfd, hu, hne]
      · intro e he
        simp only [List.mem_singleton] at he
        rw [he, hdn]

/-- C3 counterexample: at a concrete record with a stale target file and a
stale sidecar, the run's effect trace is export, then metadata patch (at the
pre-rename directory name), then rename — the patch precedes the rename,
contradicting the claimed rename-then-patch order. -/
theorem C3_counterexample :
    (sync cfg0 renderNew (fun _ => some 5) [book1] stStale).effects =
      [Eff.exportBook 1,
       Eff.writeMeta "ko" "Old (1).sdr" "metadata.epub.lua",
       Eff.renameSdr "ko" "Old (1).sdr" "New (1).sdr"] ∧
    (sync cfg0 renderNew (fun _ => some 5) [book1] stStale).effects.indexOf
        (Eff.writeMeta "ko" "Old (1).sdr" "metadata.epub.lua")
      < (sync cfg0 renderNew (fun _ => some 5) [book1] stStale).effects.indexOf
        (Eff.renameSdr "ko" "Old (1).sdr" "New (1).sdr") := by
  constructor <;> decide

/-- C2 (amended): sidecar reconciliation is invoked only on the
successful-materialization path: a record whose staleness check reports
up-to-date, or whose export fails, produces no sidecar rename and no metadata
write in that run (its sidecar state is untouched). -/
theorem C2_reconcile_only_after_export (cfg : Config) (render : Book → String)
    (oracle : Book → Option Int) (st : RunState) (res : SyncResult)
    (kept : List String) (effs : List Eff) (b : Book)
    (h : ∀ f, canonName cfg render b = some f →
        bookNeedsUpdate b.last_modified st.target f = false ∨ oracle b = none) :
    (processBook cfg render oracle (st, res, kept, effs) b).2.2.2.filter isSdrEff
        = effs.filter isSdrEff ∧
    (processBook cfg render oracle (st, res, kept, effs) b).1.sdrs = st.sdrs := by
  unfold processBook
  rcases hp : getPreferredFormat (normExts cfg.supportedExtensions) b.formats with _ | fmt
  · simp [hp]
  · have hc : canonName cfg render b = some (filenameFor render b fmt) := by
      unfold canonName
      rw [hp]
      rfl
    rcases h _ hc with hskip | hfail
    · simp [hp, hskip]
    · by_cases hnu : bookNeedsUpdate b.last_modified st.target (filenameFor render b fmt)
          = true
      · simp only [hp]
        rw [if_pos hnu]
        unfold exportBookM
        simp only [hfail]
        rw [if_neg (by simp)]
        constructor
        · rw [List.filter_append]
          simp [isSdrEff]
        · rfl
      · simp only [hp]
        rw [if_neg hnu]
        exact ⟨rfl, rfl⟩

/-- Witness for `C2_reconcile_only_after_export`: the concrete fresh-file,
stale-sidecar record. -/
theorem C2_reconcile_only_after_export_witness :
    (processBook cfg0 renderNew (fun _ => some 5) (stFresh, ⟨0, 0, 0, []⟩, [], [])
        book1).2.2.2.filter isSdrEff = ([] : List Eff).filter isSdrEff ∧
    (processBook cfg0 renderNew (fun _ => some 5) (stFresh, ⟨0, 0, 0, []⟩, [], [])
        book1).1.sdrs = stFresh.sdrs :=
  C2_reconcile_only_after_export cfg0 renderNew (fun _ => some 5) stFresh ⟨0, 0, 0, []⟩
    [] [] book1 (by
      intro f hf
      have hcan : canonName cfg0 renderNew book1 = some "New (1).epub" := by decide
      rw [hcan] at hf
      have hfe : f = "New (1).epub" := by
        injection hf with hf
        exact hf.symm
      rw [hfe]
      left
      decide)

/-- C2 counterexample: a record whose target file is current but whose sidecar
directory name is stale (and carries the record's id) gets no sidecar rename
and no metadata patch in that run — the whole run performs no effects and
leaves the stale sidecar untouched. -/
theorem C2_counterexample :
    buildSdrNameFromFilename "New (1).epub" ≠ sdrStale.name ∧
    extractIdFromSdrName sdrStale.name = some book1.id ∧
    (sync cfg0 renderNew (fun _ => some 5) [book1] stFresh).effects = [] ∧
    (sync cfg0 renderNew (fun _ => some 5) [book1] stFresh).state.sdrs = [sdrStale] := by
  refine ⟨by decide, by decide, by decide, by decide⟩

/-- `parseAssign` decomposes its input exactly. -/
theorem parseAssign_sound (l mid v rest : List Char)
    (h : parseAssign l = some (mid, v, rest)) :
    l = mid ++ v ++ qc :: rest ∧ v ≠ [] := by
  unfold parseAssign at h
  rcases hd1 : l.dropWhile jsWs with _ | ⟨c1, l2⟩ <;> rw [hd1] at h
  · simp at h
  · simp only at h
    by_cases hc1 : c1 = '='
    · rw [if_pos hc1] at h
      rcases hd2 : l2.dropWhile jsWs with _ | ⟨c, l4⟩ <;> rw [hd2] at h
      · simp at h
      · simp only at h
        by_cases hc : c = qc
        · rw [if_pos hc] at h
          rcases hd3 : l4.dropWhile (fun x => x ≠ qc) with _ | ⟨d, rest2⟩ <;> rw [hd3] at h
          · simp at h
          · simp only at h
            by_cases hd : d = qc
            · rw [if_pos hd] at h
              by_cases hv : l4.takeWhile (fun x => x ≠ qc) = []
              · rw [if_pos hv] at h
                simp at h
              · rw [if_neg hv] at h
                obtain ⟨h1, h2, h3⟩ :
                    l.takeWhile jsWs ++ '=' :: l2.takeWhile jsWs ++ [qc] = mid
                      ∧ l4.takeWhile (fun x => x ≠ qc) = v ∧ rest2 = rest := by
                  simpa using h
                constructor
                · have e1 : l = l.takeWhile jsWs ++ (c1 :: l2) := by
                    conv_lhs => rw [← List.takeWhile_append_dropWhile jsWs l]
                    rw [hd1]
                  have e2 : l2 = l2.takeWhile jsWs ++ (c :: l4) := by
                    conv_lhs => rw [← List.takeWhile_append_dropWhile jsWs l2]
                    rw [hd2]
                  have e3 : l4 = l4.takeWhile (fun x => x ≠ qc) ++ (d :: rest2) := by
                    conv_lhs =>
                      rw [← List.takeWhile_append_dropWhile (fun x => x ≠ qc) l4]
                    rw [hd3]
                  rw [e1, e2, e3, hc1, hc, hd, ← h1, ← h2, ← h3]
                  simp
                · rw [← h2]
                  exact hv
            · rw [if_neg hd] at h
              simp at h
        · rw [if_neg hc] at h
          simp at h
    · rw [if_neg hc1] at h
      simp at h

/-- `findDocPath` decomposes its input exactly: the content is the prefix,
the key, the `=`/quote middle, the non-empty value, the closing quote and the
suffix. -/
theorem findDocPath_sound (content : List Char) :
    ∀ pre mid v suf, findDocPath content = some (pre, mid, v, suf) →
      content = pre ++ docKey ++ mid ++ v ++ qc :: suf ∧ v ≠ [] := by
  induction content with
  | nil => intro pre mid v suf h; simp [findDocPath] at h
  | cons c rest ih =>
    intro pre mid v suf h
    unfold findDocPath at h
    split at h
    next htake =>
      split at h
      next mid2 v2 suf2 hpa =>
        obtain ⟨h1, h2, h3, h4⟩ : ([] : List Char) = pre ∧ mid2 = mid ∧ v2 = v ∧ suf2 = suf := by
          simpa using h
        subst h1 h2 h3 h4
        obtain ⟨hdec, hvne⟩ := parseAssign_sound _ _ _ _ hpa
        constructor
        · have : c :: rest = (c :: rest).take 12 ++ (c :: rest).drop 12 :=
            (List.take_append_drop 12 (c :: rest)).symm
          rw [this, htake, hdec]
          simp
        · exact hvne
      next hpa =>
        split at h
        next pre2 mid2 v2 suf2 hrec =>
          obtain ⟨h1, h2, h3, h4⟩ : c :: pre2 = pre ∧ mid2 = mid ∧ v2 = v ∧ suf2 = suf := by
            simpa using h
          subst h1 h2 h3 h4
          obtain ⟨hdec, hvne⟩ := ih _ _ _ _ hrec
          constructor
          · simp [hdec]
          · exact hvne
        next => exact absurd h (by simp)
    next htake =>
      split at h
      next pre2 mid2 v2 suf2 hrec =>
        obtain ⟨h1, h2, h3, h4⟩ : c :: pre2 = pre ∧ mid2 = mid ∧ v2 = v ∧ suf2 = suf := by
          simpa using h
        subst h1 h2 h3 h4
        obtain ⟨hdec, hvne⟩ := ih _ _ _ _ hrec
        constructor
        · simp [hdec]
        · exact hvne
      next => exact absurd h (by simp)

/-- A dollar-free replacement followed by `$3` is substituted literally, then
closed by group 3. -/
theorem substF_literal (g0 g1 g2 g3 bfr aft : List Char) :
    ∀ (new : List Char) (fuel : Nat), (∀ c ∈ new, c ≠ dlr) → new.length + 2 ≤ fuel →
      substF g0 g1 g2 g3 bfr aft fuel (new ++ [dlr, '3']) = new ++ g3 := by
  intro new
  induction new with
  | nil =>
    intro fuel hnd hf
    cases fuel with
    | zero => omega
    | succ f => rfl
  | cons n ns ih =>
    intro fuel hnd hf
    cases fuel with
    | zero => simp at hf
    | succ f =>
      have hn : ¬(n = dlr) := hnd n (List.mem_cons_self _ _)
      rcases hsh : ns ++ [dlr, '3'] with _ | ⟨m, ms⟩
      · exact absurd hsh (by simp)
      · rw [List.cons_append, hsh]
        rw [show substF g0 g1 g2 g3 bfr aft (f + 1) (n :: m :: ms)
            = n :: substF g0 g1 g2 g3 bfr aft f (m :: ms) from by
          simp only [substF]
          rw [if_neg hn]]
        rw [← hsh, ih f (fun c hc => hnd c (List.mem_cons_of_mem n hc))
          (by simp only [List.length_cons] at hf; omega)]
        rfl

/-- The full replacement template `$1<new>$3` with a dollar-free `new`
substitutes to group 1, the new value, group 3. -/
theorem substF_template (g0 g1 g2 g3 bfr aft : List Char) (new : List Char) (fuel : Nat)
    (hnd : ∀ c ∈ new, c ≠ dlr) (hf : new.length + 4 ≤ fuel) :
    substF g0 g1 g2 g3 bfr aft fuel (dlr :: '1' :: (new ++ [dlr, '3']))
      = g1 ++ (new ++ g3) := by
  cases fuel with
  | zero => omega
  | succ f =>
    rcases new with _ | ⟨n, ns⟩
    · have e : substF g0 g1 g2 g3 bfr aft (f + 1) (dlr :: '1' :: ([] ++ [dlr, '3']))
          = g1 ++ substF g0 g1 g2 g3 bfr aft f [dlr, '3'] := by
        simp only [List.nil_append, substF]
        rw [if_pos trivial, if_neg (by decide), if_neg (by decide), if_neg (by decide),
          if_neg (by decide)]
        rw [if_pos (by decide)]
        rw [if_neg (show ¬((dlr.isDigit = true) ∧
            1 ≤ 10 * (('1' : Char).toNat - 48) + (dlr.toNat - 48) ∧
            10 * (('1' : Char).toNat - 48) + (dlr.toNat - 48) ≤ 3) from by decide)]
        rw [if_pos (by decide)]
        rfl
      rw [e]
      cases f with
      | zero => omega
      | succ f2 =>
        rw [show substF g0 g1 g2 g3 bfr aft (f2 + 1) [dlr, '3'] = g3 from rfl]
        rfl
    · have hcond : ¬((n.isDigit = true) ∧
          1 ≤ 10 * (('1' : Char).toNat - 48) + (n.toNat - 48) ∧
          10 * (('1' : Char).toNat - 48) + (n.toNat - 48) ≤ 3) := by
        rintro ⟨-, -, hle⟩
        have h49 : ('1' : Char).toNat = 49 := rfl
        omega
      have e : substF g0 g1 g2 g3 bfr aft (f + 1) (dlr :: '1' :: ((n :: ns) ++ [dlr, '3']))
          = g1 ++ substF g0 g1 g2 g3 bfr aft f ((n :: ns) ++ [dlr, '3']) := by
        rw [List.cons_append]
        simp only [substF]
        rw [if_pos trivial, if_neg (by decide), if_neg (by decide), if_neg (by decide),
          if_neg (by decide)]
        rw [if_pos (by decide)]
        rw [if_neg hcond]
        rw [if_pos (by decide)]
        rfl
      rw [e, substF_literal g0 g1 g2 g3 bfr aft (n :: ns) f hnd
        (by simp only [List.length_cons] at hf ⊢; omega)]

/-- `subst` on the spliced template with a dollar-free new path. -/
theorem subst_template (g0 g1 g2 g3 bfr aft : List Char) (new : List Char)
    (hnd : ∀ c ∈ new, c ≠ dlr) :
    subst g0 g1 g2 g3 bfr aft (dlr :: '1' :: (new ++ [dlr, '3'])) = g1 ++ (new ++ g3) := by
  unfold subst
  exact substF_template g0 g1 g2 g3 bfr aft new _ hnd (by simp)

/-- A list splits into its whitespace-free front and its trailing whitespace
run. -/
theorem wsSuffix_decomp (pre : List Char) :
    pre.take (pre.length - (wsSuffix pre).length) ++ wsSuffix pre = pre := by
  have hsplit : (pre.reverse.dropWhile jsWs).reverse ++ wsSuffix pre = pre := by
    unfold wsSuffix
    rw [← List.reverse_append, List.takeWhile_append_dropWhile, List.reverse_reverse]
  set A := (pre.reverse.dropWhile jsWs).reverse with hA
  set B := wsSuffix pre with hB
  rw [← hsplit, List.length_append,
    show A.length + B.length - B.length = A.length from by omega, List.take_left]

/-- `indexOfRet` soundness: the returned index points at an occurrence of
`return {`. -/
theorem indexOfRet_sound (content : List Char) :
    ∀ i, indexOfRet content = some i → retBrace.isPrefixOf (content.drop i) = true := by
  induction content with
  | nil =>
    intro i h
    unfold indexOfRet at h
    split at h
    next hpre => cases Option.some.inj h; simpa using hpre
    next => cases h
  | cons c rest ih =>
    intro i h
    unfold indexOfRet at h
    split at h
    next hpre =>
      cases Option.some.inj h
      simpa using hpre
    next hpre =>
      rcases hrec : indexOfRet rest with _ | j
      · rw [hrec] at h
        cases h
      · rw [hrec] at h
        have hij : j + 1 = i := by simpa using h
        subst hij
        rw [List.drop_succ_cons]
        exact ih j hrec

/-- C5 (amended): patching replaces exactly the quoted value span of the first
doc_path assignment, byte-for-byte preserving everything else, for every new
path free of the `$` character (a `$` in the new path is interpreted by the
ECMAScript replacement-template rules instead); if the key is absent, the new
assignment is inserted after `content.indexOf("return {") + 9` — one character
past the 8-character marker — and if no `return {` occurs, the content is
returned unchanged. -/
theorem C5_patch_frame (content newPath : List Char) :
    (∀ pre mid v suf, findDocPath content = some (pre, mid, v, suf) →
       content = pre ++ docKey ++ mid ++ v ++ qc :: suf ∧
       ((∀ c ∈ newPath, c ≠ dlr) →
         updateDocPath content newPath = pre ++ docKey ++ mid ++ newPath ++ qc :: suf)) ∧
    (findDocPath content = none → ∀ i, indexOfRet content = some i →
       retBrace.isPrefixOf (content.drop i) = true ∧
       updateDocPath content newPath
         = content.take (i + 9) ++ insertLine newPath ++ content.drop (i + 9)) ∧
    (findDocPath content = none → indexOfRet content = none →
       updateDocPath content newPath = content) := by
  refine ⟨?_, ?_, ?_⟩
  · intro pre mid v suf hfind
    obtain ⟨hdec, hvne⟩ := findDocPath_sound content pre mid v suf hfind
    refine ⟨hdec, ?_⟩
    intro hnd
    unfold updateDocPath
    simp only [hfind]
    rw [subst_template _ _ _ _ _ _ newPath hnd]
    have hws := wsSuffix_decomp pre
    calc pre.take (pre.length - (wsSuffix pre).length) ++
          ((wsSuffix pre ++ docKey ++ mid) ++ (newPath ++ [qc])) ++ suf
        = (pre.take (pre.length - (wsSuffix pre).length) ++ wsSuffix pre) ++
            (docKey ++ (mid ++ (newPath ++ ([qc] ++ suf)))) := by
          simp [List.append_assoc]
      _ = pre ++ docKey ++ mid ++ newPath ++ qc :: suf := by
          rw [hws]
          simp [List.append_assoc]
  · intro hnone i hidx
    refine ⟨indexOfRet_sound content i hidx, ?_⟩
    unfold updateDocPath
    simp only [hnone, hidx]
  · intro hnone hnoidx
    unfold updateDocPath
    simp only [hnone, hnoidx]

/-- Witness for `C5_patch_frame`: a concrete patch replacing only the value
span. -/
theorem C5_patch_frame_witness :
    updateDocPath ("x [\"doc_path\"] = \"old\",y").data ("/n").data
      = ("x [\"doc_path\"] = \"/n\",y").data := by
  have h := (C5_patch_frame ("x [\"doc_path\"] = \"old\",y").data ("/n").data).1
    ("x ".data) ([' ', '=', ' ', qc]) ("old".data) ((",y").data) (by decide)
  have h2 := h.2 (by decide)
  rw [h2]
  decide

/-- C5 counterexample: with no doc_path key, the new assignment is inserted
after `"return {"` plus one more character (for `return {}`, after the closing
brace), not immediately after the opening table marker; and a new path
containing `$` is not spliced literally (here `$2$2` duplicates the old
value). -/
theorem C5_counterexample :
    updateDocPathS "return \x7b\x7d" "/new/Y (1).epub"
      = "return \x7b\x7d\n    [\"doc_path\"] = \"/new/Y (1).epub\"," ∧
    updateDocPathS "return \x7b\x7d" "/new/Y (1).epub"
      ≠ "return \x7b\n    [\"doc_path\"] = \"/new/Y (1).epub\",\x7d" ∧
    updateDocPathS "[\"doc_path\"] = \"o\"" "$2$2" = "[\"doc_path\"] = \"oo\"" ∧
    updateDocPathS "[\"doc_path\"] = \"o\"" "$2$2" ≠ "[\"doc_path\"] = \"$2$2\"" := by
  refine ⟨by decide, by decide, by decide, by decide⟩

/-- Every branch of the per-record step increments `processed` by one. -/
theorem processBook_processed (cfg : Config) (render : Book → String)
    (oracle : Book → Option Int) (st : RunState) (res : SyncResult)
    (kept : List String) (effs : List Eff) (b : Book) :
    ((processBook cfg render oracle (st, res, kept, effs) b).2.1).processed
      = res.processed + 1 := by
  unfold processBook
  rcases hp : getPreferredFormat (normExts cfg.supportedExtensions) b.formats with _ | fmt
  · simp [hp]
  · simp only [hp]
    by_cases hnu : bookNeedsUpdate b.last_modified st.target (filenameFor render b fmt) = true
    · rw [if_pos hnu]
      unfold exportBookM
      rcases ho : oracle b with _ | m
      · simp [ho]
      · simp [ho]
    · rw [if_neg hnu]

/-- The per-record step appends the record's canonical name (when resolved)
to the kept set. -/
theorem processBook_kept (cfg : Config) (render : Book → String)
    (oracle : Book → Option Int) (st : RunState) (res : SyncResult)
    (kept : List String) (effs : List Eff) (b : Book) :
    (processBook cfg render oracle (st, res, kept, effs) b).2.2.1
      = kept ++ (canonName cfg render b).toList := by
  unfold processBook canonName
  rcases hp : getPreferredFormat (normExts cfg.supportedExtensions) b.formats with _ | fmt
  · simp [hp]
  · simp only [hp]
    by_cases hnu : bookNeedsUpdate b.last_modified st.target (filenameFor render b fmt) = true
    · rw [if_pos hnu]
      unfold exportBookM
      rcases ho : oracle b with _ | m
      · simp [ho]
      · simp [ho]
    · rw [if_neg hnu]
      simp

/-- The per-record step only appends error entries tagged with the record's
own `"title (id)"` string. -/
theorem processBook_errors (cfg : Config) (render : Book → String)
    (oracle : Book → Option Int) (st : RunState) (res : SyncResult)
    (kept : List String) (effs : List Eff) (b : Book) :
    ∃ newE, (processBook cfg render oracle (st, res, kept, effs) b).2.1.errors
        = res.errors ++ newE ∧ ∀ e ∈ newE, e.book = errTag b := by
  unfold processBook
  rcases hp : getPreferredFormat (normExts cfg.supportedExtensions) b.formats with _ | fmt
  · refine ⟨[⟨errTag b, "No supported format found"⟩], by simp [hp], by simp⟩
  · simp only [hp]
    by_cases hnu : bookNeedsUpdate b.last_modified st.target (filenameFor render b fmt) = true
    · rw [if_pos hnu]
      unfold exportBookM
      rcases ho : oracle b with _ | m
      · refine ⟨[⟨errTag b, "Export failed"⟩], by simp [ho], by simp⟩
      · refine ⟨[], by simp [ho], by simp⟩
    · rw [if_neg hnu]
      exact ⟨[], by simp, by simp⟩

/-- The per-record step leaves all target entries other than the record's own
canonical name untouched. -/
theorem processBook_lookup_preserved (cfg : Config) (render : Book → String)
    (oracle : Book → Option Int) (st : RunState) (res : SyncResult)
    (kept : List String) (effs : List Eff) (b2 : Book) (f : String)
    (h : canonName cfg render b2 ≠ some f) :
    lookupFile ((processBook cfg render oracle (st, res, kept, effs) b2).1).target f
      = lookupFile st.target f := by
  unfold processBook
  rcases hp : getPreferredFormat (normExts cfg.supportedExtensions) b2.formats with _ | fmt
  · simp [hp]
  · have hne : filenameFor render b2 fmt ≠ f := by
      intro hcontra
      exact h (by unfold canonName; rw [hp]; simpa using hcontra)
    simp only [hp]
    by_cases hnu : bookNeedsUpdate b2.last_modified st.target (filenameFor render b2 fmt)
        = true
    · rw [if_pos hnu]
      unfold exportBookM
      rcases ho : oracle b2 with _ | m
      · simp [ho]
      · simp only [ho]
        exact lookupFile_setFile_other st.target (filenameFor render b2 fmt) m f
          (fun hcontra => hne hcontra.symm)
    · rw [if_neg hnu]

/-- A record whose canonical target file is already fresh is skipped without
touching any state or producing any effect. -/
theorem processBook_skip (cfg : Config) (render : Book → String)
    (oracle : Book → Option Int) (st : RunState) (res : SyncResult)
    (kept : List String) (effs : List Eff) (b : Book) (f : String)
    (hc : canonName cfg render b = some f)
    (hfresh : bookNeedsUpdate b.last_modified st.target f = false) :
    (processBook cfg render oracle (st, res, kept, effs) b).1 = st ∧
    (processBook cfg render oracle (st, res, kept, effs) b).2.2.2 = effs := by
  obtain ⟨fmt, hp, hf⟩ : ∃ fmt,
      getPreferredFormat (normExts cfg.supportedExtensions) b.formats = some fmt ∧
      filenameFor render b fmt = f := by
    unfold canonName at hc
    rcases hgp : getPreferredFormat (normExts cfg.supportedExtensions) b.formats with _ | fmt
    · rw [hgp] at hc
      cases hc
    · rw [hgp] at hc
      exact ⟨fmt, rfl, by simpa using hc⟩
  unfold processBook
  simp only [hp, hf]
  rw [if_neg (by rw [hfresh]; exact fun hcontra => Bool.noConfusion hcontra)]
  exact ⟨rfl, rfl⟩

/-- A record resolving no supported format only records an error. -/
theorem processBook_noformat (cfg : Config) (render : Book → String)
    (oracle : Book → Option Int) (st : RunState) (res : SyncResult)
    (kept : List String) (effs : List Eff) (b : Book)
    (hc : canonName cfg render b = none) :
    (processBook cfg render oracle (st, res, kept, effs) b).1 = st ∧
    (processBook cfg render oracle (st, res, kept, effs) b).2.2.2 = effs := by
  have hp : getPreferredFormat (normExts cfg.supportedExtensions) b.formats = none := by
    unfold canonName at hc
    rcases hgp : getPreferredFormat (normExts cfg.supportedExtensions) b.formats with _ | fmt
    · rfl
    · rw [hgp] at hc
      cases hc
  unfold processBook
  simp [hp]

/-- A record whose export fails leaves the state unchanged and records exactly
one error entry. -/
theorem processBook_fail (cfg : Config) (render : Book → String)
    (oracle : Book → Option Int) (st : RunState) (res : SyncResult)
    (kept : List String) (effs : List Eff) (b : Book) (f : String)
    (hc : canonName cfg render b = some f)
    (hnu : bookNeedsUpdate b.last_modified st.target f = true)
    (hfail : oracle b = none) :
    (processBook cfg render oracle (st, res, kept, effs) b).1 = st ∧
    (processBook cfg render oracle (st, res, kept, effs) b).2.1.errors
      = res.errors ++ [⟨errTag b, "Export failed"⟩] := by
  obtain ⟨fmt, hp, hf⟩ : ∃ fmt,
      getPreferredFormat (normExts cfg.supportedExtensions) b.formats = some fmt ∧
      filenameFor render b fmt = f := by
    unfold canonName at hc
    rcases hgp : getPreferredFormat (normExts cfg.supportedExtensions) b.formats with _ | fmt
    · rw [hgp] at hc
      cases hc
    · rw [hgp] at hc
      exact ⟨fmt, rfl, by simpa using hc⟩
  unfold processBook
  simp only [hp, hf]
  rw [if_pos hnu]
  unfold exportBookM
  simp [hfail]

/-- The whole pass increments `processed` once per record. -/
theorem fold_processed (cfg : Config) (render : Book → String)
    (oracle : Book → Option Int) :
    ∀ (l : List Book) (acc : RunState × SyncResult × List String × List Eff),
      ((l.foldl (processBook cfg render oracle) acc).2.1).processed
        = acc.2.1.processed + l.length := by
  intro l
  induction l with
  | nil => intro acc; simp
  | cons b l ih =>
    intro acc
    rcases acc with ⟨st, res, kept, effs⟩
    rw [List.foldl_cons, ih, processBook_processed]
    simp only [List.length_cons]
    omega

/-- The whole pass accumulates exactly the resolved canonical names. -/
theorem fold_kept (cfg : Config) (render : Book → String)
    (oracle : Book → Option Int) :
    ∀ (l : List Book) (acc : RunState × SyncResult × List String × List Eff),
      (l.foldl (processBook cfg render oracle) acc).2.2.1
        = acc.2.2.1 ++ l.filterMap (canonName cfg render) := by
  intro l
  induction l with
  | nil => intro acc; simp
  | cons b l ih =>
    intro acc
    rcases acc with ⟨st, res, kept, effs⟩
    rw [List.foldl_cons, ih, processBook_kept]
    rcases hcb : canonName cfg render b with _ | g
    · simp [List.filterMap_cons, hcb]
    · simp [List.filterMap_cons, hcb]

/-- The whole pass only appends error entries tagged by records of the list. -/
theorem fold_errors_decomp (cfg : Config) (render : Book → String)
    (oracle : Book → Option Int) :
    ∀ (l : List Book) (acc : RunState × SyncResult × List String × List Eff),
      ∃ newE, (l.foldl (processBook cfg render oracle) acc).2.1.errors
          = acc.2.1.errors ++ newE ∧ ∀ e ∈ newE, ∃ x ∈ l, e.book = errTag x := by
  intro l
  induction l with
  | nil => intro acc; exact ⟨[], by simp, by simp⟩
  | cons b l ih =>
    intro acc
    rcases acc with ⟨st, res, kept, effs⟩
    obtain ⟨e1, he1, he1t⟩ :=
      processBook_errors cfg render oracle st res kept effs b
    obtain ⟨e2, he2, he2t⟩ := ih (processBook cfg render oracle (st, res, kept, effs) b)
    refine ⟨e1 ++ e2, ?_, ?_⟩
    · rw [List.foldl_cons, he2, he1]
      simp [List.append_assoc]
    · intro e he
      rcases List.mem_append.mp he with he | he
      · exact ⟨b, List.mem_cons_self _ _, he1t e he⟩
      · obtain ⟨x, hx, ht⟩ := he2t e he
        exact ⟨x, List.mem_cons_of_mem _ hx, ht⟩

/-- The whole pass leaves a target entry untouched when no processed record
owns that canonical name. -/
theorem fold_lookup_preserved (cfg : Config) (render : Book → String)
    (oracle : Book → Option Int) (f : String) :
    ∀ (l : List Book) (acc : RunState × SyncResult × List String × List Eff),
      (∀ x ∈ l, canonName cfg render x ≠ some f) →
      lookupFile ((l.foldl (processBook cfg render oracle) acc).1).target f
        = lookupFile acc.1.target f := by
  intro l
  induction l with
  | nil => intro acc _; rfl
  | cons b l ih =>
    intro acc hne
    rcases acc with ⟨st, res, kept, effs⟩
    rw [List.foldl_cons,
      ih _ (fun x hx => hne x (List.mem_cons_of_mem _ hx)),
      processBook_lookup_preserved cfg render oracle st res kept effs b f
        (hne b (List.mem_cons_self _ _))]

/-- C7: a record whose export fails does not stop the run: every record is
still processed (processed = number of records; every later record's
canonical name still enters the kept set), and the failing record appears
exactly once in the error list, identified by its `"title (id)"` tag. -/
theorem C7_partial_failure_isolation (cfg : Config) (render : Book → String)
    (oracle : Book → Option Int) (books : List Book) (st0 : RunState)
    (b : Book) (f : String)
    (hmem : b ∈ books)
    (htag : books.countP (fun x => errTag x == errTag b) = 1)
    (hc : canonName cfg render b = some f)
    (hfail : oracle b = none)
    (hinit : lookupFile st0.target f = none)
    (hown : ∀ x ∈ books, canonName cfg render x = some f → errTag x = errTag b) :
    (sync cfg render oracle books st0).result.errors.countP
        (fun e => e.book == errTag b) = 1 ∧
    (sync cfg render oracle books st0).result.processed = books.length ∧
    (∀ x ∈ books, ∀ g, canonName cfg render x = some g →
      g ∈ (sync cfg render oracle books st0).kept) := by
  have hres : (sync cfg render oracle books st0).result
      = (books.foldl (processBook cfg render oracle)
          (st0, ⟨0, 0, 0, []⟩, [], [])).2.1 := rfl
  have hkept : (sync cfg render oracle books st0).kept
      = (books.foldl (processBook cfg render oracle)
          (st0, ⟨0, 0, 0, []⟩, [], [])).2.2.1 := rfl
  refine ⟨?_, ?_, ?_⟩
  · obtain ⟨l1, l2, hb⟩ := List.append_of_mem hmem
    subst hb
    have hcount : l1.countP (fun x => errTag x == errTag b) = 0 ∧
        l2.countP (fun x => errTag x == errTag b) = 0 := by
      rw [List.countP_append, List.countP_cons] at htag
      have hself : (errTag b == errTag b) = true := by simp
      rw [hself, if_pos (rfl : (true : Bool) = true)] at htag
      constructor <;> omega
    have hne1 : ∀ x ∈ l1, canonName cfg render x ≠ some f := by
      intro x hx hcanon
      have hx2 : x ∈ l1 ++ b :: l2 := List.mem_append_left _ hx
      have ht := hown x hx2 hcanon
      have := List.countP_eq_zero.mp hcount.1 x hx
      simp [ht] at this
    rw [hres, List.foldl_append, List.foldl_cons]
    rcases hacc : l1.foldl (processBook cfg render oracle)
        (st0, ⟨0, 0, 0, []⟩, [], []) with ⟨st1, res1, kept1, effs1⟩
    have hlook1 : lookupFile st1.target f = none := by
      have := fold_lookup_preserved cfg render oracle f l1
        (st0, ⟨0, 0, 0, []⟩, [], []) hne1
      rw [hacc] at this
      simpa [hinit] using this
    have hnu : bookNeedsUpdate b.last_modified st1.target f = true := by
      unfold bookNeedsUpdate
      rw [hlook1]
    obtain ⟨hstu, herr⟩ :=
      processBook_fail cfg render oracle st1 res1 kept1 effs1 b f hc hnu hfail
    have hres1 : res1.errors.countP (fun e => e.book == errTag b) = 0 := by
      obtain ⟨newE, hE, hEt⟩ := fold_errors_decomp cfg render oracle l1
        (st0, ⟨0, 0, 0, []⟩, [], [])
      rw [hacc] at hE
      simp only at hE
      rw [hE]
      rw [List.countP_eq_zero.mpr]
      intro e he
      obtain ⟨x, hx, ht⟩ := hEt e he
      have htx := List.countP_eq_zero.mp hcount.1 x hx
      simp only [ht]
      simpa using htx
    obtain ⟨newE2, hE2, hE2t⟩ := fold_errors_decomp cfg render oracle l2
      (processBook cfg render oracle (st1, res1, kept1, effs1) b)
    rw [hE2, herr]
    rw [List.countP_append, List.countP_append, hres1]
    have hone : List.countP (fun e => e.book == errTag b)
        [(⟨errTag b, "Export failed"⟩ : ErrEntry)] = 1 := by simp
    have hzero2 : newE2.countP (fun e => e.book == errTag b) = 0 := by
      rw [List.countP_eq_zero.mpr]
      intro e he
      obtain ⟨x, hx, ht⟩ := hE2t e he
      have htx := List.countP_eq_zero.mp hcount.2 x hx
      simp only [ht]
      simpa using htx
    rw [hone, hzero2]
  · rw [hres, fold_processed]
    simp
  · intro x hx g hg
    rw [hkept, fold_kept]
    simp only [List.nil_append]
    exact List.mem_filterMap.mpr ⟨x, hx, hg⟩

/-- Witness for `C7_partial_failure_isolation`: three records, the middle one
failing. -/
theorem C7_partial_failure_isolation_witness :
    (sync cfg0 renderNew (fun bk => if bk.id = 2 then none else some bk.last_modified)
        [⟨1, "A", 5, ["EPUB"]⟩, ⟨2, "B", 5, ["EPUB"]⟩, ⟨3, "C", 5, ["EPUB"]⟩]
        stEmpty).result.errors.countP
        (fun e => e.book == errTag ⟨2, "B", 5, ["EPUB"]⟩) = 1 ∧
    (sync cfg0 renderNew (fun bk => if bk.id = 2 then none else some bk.last_modified)
        [⟨1, "A", 5, ["EPUB"]⟩, ⟨2, "B", 5, ["EPUB"]⟩, ⟨3, "C", 5, ["EPUB"]⟩]
        stEmpty).result.processed
      = ([⟨1, "A", 5, ["EPUB"]⟩, ⟨2, "B", 5, ["EPUB"]⟩,
          (⟨3, "C", 5, ["EPUB"]⟩ : Book)]).length ∧
    (∀ x ∈ [⟨1, "A", 5, ["EPUB"]⟩, ⟨2, "B", 5, ["EPUB"]⟩,
          (⟨3, "C", 5, ["EPUB"]⟩ : Book)], ∀ g,
      canonName cfg0 renderNew x = some g →
      g ∈ (sync cfg0 renderNew
            (fun bk => if bk.id = 2 then none else some bk.last_modified)
            [⟨1, "A", 5, ["EPUB"]⟩, ⟨2, "B", 5, ["EPUB"]⟩, ⟨3, "C", 5, ["EPUB"]⟩]
            stEmpty).kept) :=
  C7_partial_failure_isolation cfg0 renderNew
    (fun bk => if bk.id = 2 then none else some bk.last_modified)
    [⟨1, "A", 5, ["EPUB"]⟩, ⟨2, "B", 5, ["EPUB"]⟩, ⟨3, "C", 5, ["EPUB"]⟩]
    stEmpty ⟨2, "B", 5, ["EPUB"]⟩ "New (2).epub"
    (by decide) (by decide) (by decide) (by decide) (by decide) (by decide)

/-- A resolved canonical name comes from a resolved format. -/
theorem canonName_decomp (cfg : Config) (render : Book → String) (b : Book) (f : String)
    (hc : canonName cfg render b = some f) :
    ∃ fmt, getPreferredFormat (normExts cfg.supportedExtensions) b.formats = some fmt ∧
      filenameFor render b fmt = f := by
  unfold canonName at hc
  rcases hgp : getPreferredFormat (normExts cfg.supportedExtensions) b.formats with _ | fmt
  · rw [hgp] at hc
    cases hc
  · rw [hgp] at hc
    exact ⟨fmt, rfl, by simpa using hc⟩

/-- After its own step (with a successful, timestamp-preserving export), a
record's canonical target file exists with mtime at least its
`last_modified`. -/
theorem processBook_establishes (cfg : Config) (render : Book → String)
    (oracle : Book → Option Int) (st : RunState) (res : SyncResult)
    (kept : List String) (effs : List Eff) (b : Book) (f : String)
    (hc : canonName cfg render b = some f)
    (ho : ∃ m, oracle b = some m ∧ b.last_modified ≤ m) :
    ∃ m, lookupFile ((processBook cfg render oracle (st, res, kept, effs) b).1).target f
        = some m ∧ b.last_modified ≤ m := by
  obtain ⟨fmt, hp, hf⟩ := canonName_decomp cfg render b f hc
  unfold processBook
  simp only [hp, hf]
  by_cases hnu : bookNeedsUpdate b.last_modified st.target f = true
  · rw [if_pos hnu]
    obtain ⟨m, hom, hle⟩ := ho
    unfold exportBookM
    simp only [hom]
    exact ⟨m, lookupFile_setFile_self st.target f m, hle⟩
  · rw [if_neg hnu]
    have hnu' : bookNeedsUpdate b.last_modified st.target f = false := by
      simpa using hnu
    unfold bookNeedsUpdate at hnu'
    rcases hl : lookupFile st.target f with _ | m0
    · rw [hl] at hnu'
      cases hnu'
    · rw [hl] at hnu'
      refine ⟨m0, rfl, ?_⟩
      have : ¬ b.last_modified > m0 := by simpa using hnu'
      omega

/-- The freshness of a record's canonical target file survives the step of any
record that is either itself or owns a different canonical name. -/
theorem processBook_preserves_estab (cfg : Config) (render : Book → String)
    (oracle : Book → Option Int) (st : RunState) (res : SyncResult)
    (kept : List String) (effs : List Eff) (x b : Book) (f : String)
    (hc : canonName cfg render b = some f)
    (hx : x = b ∨ canonName cfg render x ≠ some f)
    (hP : ∃ m, lookupFile st.target f = some m ∧ b.last_modified ≤ m) :
    ∃ m, lookupFile ((processBook cfg render oracle (st, res, kept, effs) x).1).target f
        = some m ∧ b.last_modified ≤ m := by
  rcases hx with rfl | hxne
  · obtain ⟨m, hm, hle⟩ := hP
    have hfresh : bookNeedsUpdate x.last_modified st.target f = false := by
      unfold bookNeedsUpdate
      rw [hm]
      simp only [decide_eq_false_iff_not, gt_iff_lt, not_lt]
      exact hle
    obtain ⟨hst, _⟩ := processBook_skip cfg render oracle st res kept effs x f hc hfresh
    rw [hst]
    exact ⟨m, hm, hle⟩
  · rw [processBook_lookup_preserved cfg render oracle st res kept effs x f hxne]
    exact hP

/-- `processBook_preserves_estab`, folded over a record list. -/
theorem fold_preserves_estab (cfg : Config) (render : Book → String)
    (oracle : Book → Option Int) (b : Book) (f : String)
    (hc : canonName cfg render b = some f) :
    ∀ (l : List Book) (acc : RunState × SyncResult × List String × List Eff),
      (∀ x ∈ l, x = b ∨ canonName cfg render x ≠ some f) →
      (∃ m, lookupFile acc.1.target f = some m ∧ b.last_modified ≤ m) →
      ∃ m, lookupFile ((l.foldl (processBook cfg render oracle) acc).1).target f
          = some m ∧ b.last_modified ≤ m := by
  intro l
  induction l with
  | nil => intro acc _ hP; exact hP
  | cons x l ih =>
    intro acc hall hP
    rcases acc with ⟨st, res, kept, effs⟩
    rw [List.foldl_cons]
    exact ih _ (fun y hy => hall y (List.mem_cons_of_mem _ hy))
      (processBook_preserves_estab cfg render oracle st res kept effs x b f hc
        (hall x (List.mem_cons_self _ _)) hP)

/-- After the pass over a list containing the record, its canonical target
file is fresh. -/
theorem fold_estab (cfg : Config) (render : Book → String)
    (oracle : Book → Option Int) (b : Book) (f : String)
    (hc : canonName cfg render b = some f)
    (ho : ∃ m, oracle b = some m ∧ b.last_modified ≤ m) :
    ∀ (l : List Book) (acc : RunState × SyncResult × List String × List Eff),
      b ∈ l →
      (∀ x ∈ l, x = b ∨ canonName cfg render x ≠ some f) →
      ∃ m, lookupFile ((l.foldl (processBook cfg render oracle) acc).1).target f
          = some m ∧ b.last_modified ≤ m := by
  intro l
  induction l with
  | nil => intro acc hmem; cases hmem
  | cons x l ih =>
    intro acc hmem hall
    rcases acc with ⟨st, res, kept, effs⟩
    rw [List.foldl_cons]
    rcases List.mem_cons.mp hmem with rfl | hbl
    · exact fold_preserves_estab cfg render oracle b f hc l _
        (fun y hy => hall y (List.mem_cons_of_mem _ hy))
        (processBook_establishes cfg render oracle st res kept effs b f hc ho)
    · exact ih _ hbl (fun y hy => hall y (List.mem_cons_of_mem _ hy))

/-- Looking a key up survives filtering when every entry bearing that key
passes the filter. -/
theorem lookupFile_filter (t : TargetFs) (pred : String × Int → Bool) (f : String)
    (h : ∀ e ∈ t, e.1 = f → pred e = true) :
    lookupFile (t.filter pred) f = lookupFile t f := by
  induction t with
  | nil => rfl
  | cons e t ih =>
    have ih2 := ih (fun x hx hxf => h x (List.mem_cons_of_mem _ hx) hxf)
    by_cases hef : (e.1 == f) = true
    · have hp : pred e = true := h e (List.mem_cons_self _ _) (by simpa using hef)
      unfold lookupFile
      rw [List.filter_cons_of_pos hp,
        @List.find?_cons_of_pos _ (fun x => x.1 == f) e _ hef,
        @List.find?_cons_of_pos _ (fun x => x.1 == f) e _ hef]
    · cases hp : pred e with
      | true =>
        unfold lookupFile
        rw [List.filter_cons_of_pos hp,
          @List.find?_cons_of_neg _ (fun x => x.1 == f) e _ hef,
          @List.find?_cons_of_neg _ (fun x => x.1 == f) e _ hef]
        unfold lookupFile at ih2
        exact ih2
      | false =>
        unfold lookupFile
        rw [List.filter_cons_of_neg (by simp [hp]),
          @List.find?_cons_of_neg _ (fun x => x.1 == f) e _ hef]
        unfold lookupFile at ih2
        exact ih2

/-- On a flat directory, the walk is a filter by supported extension. -/
theorem findBookFiles_flat (exts : List String) (names : List String) :
    findBookFiles exts (fileEntries names) = names.filter (isSupportedBookFile exts) := by
  induction names with
  | nil => rfl
  | cons n rest ih =>
    show findBookFilesEnt exts (Ent.file n) ++ findBookFiles exts (fileEntries rest) = _
    rw [ih]
    unfold findBookFilesEnt
    rw [List.filter_cons]
    cases h : isSupportedBookFile exts n with
    | true => simp [h]
    | false => simp [h]

/-- The cleanup's removal list as a filter. -/
theorem removeObsolete_eq (exts : List String) (tree : EntList) (cur : List String) :
    removeObsoleteFiles exts tree cur
      = (findBookFiles exts tree).filter (fun p => !(cur.contains (basenameStr p))) := by
  unfold removeObsoleteFiles
  rw [removeObsolete_foldl]
  simp

/-- `path.basename` is the identity on slash-free names. -/
theorem basenameStr_noslash (f : String) (h : ∀ c ∈ f.data, c ≠ '/') :
    basenameStr f = f := by
  unfold basenameStr
  have ht : f.data.reverse.takeWhile (fun c => decide (c ≠ '/'))
      = f.data.reverse := by
    rw [List.takeWhile_eq_self_iff]
    intro c hc
    simpa using h c (List.mem_reverse.mp hc)
  rw [ht, List.reverse_reverse]

/-- When every record's canonical target file is already fresh, the whole pass
leaves the state untouched and produces no effect. -/
theorem fold_skip_all (cfg : Config) (render : Book → String)
    (oracle : Book → Option Int) :
    ∀ (l : List Book) (acc : RunState × SyncResult × List String × List Eff),
      (∀ x ∈ l, ∀ g, canonName cfg render x = some g →
        bookNeedsUpdate x.last_modified acc.1.target g = false) →
      (l.foldl (processBook cfg render oracle) acc).1 = acc.1 ∧
      (l.foldl (processBook cfg render oracle) acc).2.2.2 = acc.2.2.2 := by
  intro l
  induction l with
  | nil => intro acc _; exact ⟨rfl, rfl⟩
  | cons x l ih =>
    intro acc hall
    rcases acc with ⟨st, res, kept, effs⟩
    rw [List.foldl_cons]
    have hstep : (processBook cfg render oracle (st, res, kept, effs) x).1 = st ∧
        (processBook cfg render oracle (st, res, kept, effs) x).2.2.2 = effs := by
      rcases hcx : canonName cfg render x with _ | g
      · exact processBook_noformat cfg render oracle st res kept effs x hcx
      · exact processBook_skip cfg render oracle st res kept effs x g hcx
          (hall x (List.mem_cons_self _ _) g hcx)
    obtain ⟨h1, h4⟩ := hstep
    have hih := ih (processBook cfg render oracle (st, res, kept, effs) x)
      (by intro y hy g hg; rw [h1]; exact hall y (List.mem_cons_of_mem _ hy) g hg)
    exact ⟨hih.1.trans h1, hih.2.trans h4⟩

/-- `sync`'s effect trace, written out over the pass and the cleanup. -/
theorem sync_effects (cfg : Config) (render : Book → String)
    (oracle : Book → Option Int) (books : List Book) (st0 : RunState) :
    (sync cfg render oracle books st0).effects
      = (books.foldl (processBook cfg render oracle) (st0, ⟨0, 0, 0, []⟩, [], [])).2.2.2
        ++ (removeObsoleteFiles (normExts cfg.supportedExtensions)
            (fileEntries ((books.foldl (processBook cfg render oracle)
              (st0, ⟨0, 0, 0, []⟩, [], [])).1.target.map (fun e => e.1)))
            (books.foldl (processBook cfg render oracle)
              (st0, ⟨0, 0, 0, []⟩, [], [])).2.2.1).map Eff.unlink := rfl

/-- `sync`'s final target tree, written out over the pass and the cleanup. -/
theorem sync_state_target (cfg : Config) (render : Book → String)
    (oracle : Book → Option Int) (books : List Book) (st0 : RunState) :
    (sync cfg render oracle books st0).state.target
      = (books.foldl (processBook cfg render oracle)
          (st0, ⟨0, 0, 0, []⟩, [], [])).1.target.filter
          (fun e => !((removeObsoleteFiles (normExts cfg.supportedExtensions)
            (fileEntries ((books.foldl (processBook cfg render oracle)
              (st0, ⟨0, 0, 0, []⟩, [], [])).1.target.map (fun e => e.1)))
            (books.foldl (processBook cfg render oracle)
              (st0, ⟨0, 0, 0, []⟩, [], [])).2.2.1).contains e.1)) := rfl

/-- C1 (amended): when every attempted export succeeds with a timestamp at
least the record's `last_modified`, records have pairwise distinct canonical
filenames, and canonical filenames are slash-free, a second run of the
convergence performs zero effects: no export, no sidecar write or rename, and
no deletion. -/
theorem C1_second_run_noop (cfg : Config) (render : Book → String)
    (oracle : Book → Option Int) (books : List Book) (st0 : RunState)
    (Horacle : ∀ b ∈ books, ∃ m, oracle b = some m ∧ b.last_modified ≤ m)
    (Hdist : ∀ b1 ∈ books, ∀ b2 ∈ books, ∀ f, canonName cfg render b1 = some f →
      canonName cfg render b2 = some f → b1 = b2)
    (Hslash : ∀ b ∈ books, ∀ f, canonName cfg render b = some f →
      ∀ c ∈ f.data, c ≠ '/') :
    (sync cfg render oracle books (sync cfg render oracle books st0).state).effects
      = [] := by
  rcases hF1 : books.foldl (processBook cfg render oracle)
      (st0, ⟨0, 0, 0, []⟩, [], []) with ⟨st1f, res1f, kept1f, effs1f⟩
  have hkept1f : kept1f = books.filterMap (canonName cfg render) := by
    have h := fold_kept cfg render oracle books (st0, ⟨0, 0, 0, []⟩, [], [])
    rw [hF1] at h
    simpa using h
  have hstA : (sync cfg render oracle books st0).state.target
      = st1f.target.filter (fun e =>
          !((removeObsoleteFiles (normExts cfg.supportedExtensions)
              (fileEntries (st1f.target.map (fun e => e.1))) kept1f).contains e.1)) := by
    rw [sync_state_target, hF1]
  have hfresh : ∀ b ∈ books, ∀ f, canonName cfg render b = some f →
      ∃ m, lookupFile (sync cfg render oracle books st0).state.target f = some m ∧
        b.last_modified ≤ m := by
    intro b hb f hcf
    have hdistb : ∀ x ∈ books, x = b ∨ canonName cfg render x ≠ some f := by
      intro x hx
      by_cases hxb : x = b
      · exact Or.inl hxb
      · exact Or.inr (fun hcx => hxb (Hdist x hx b hb f hcx hcf))
    obtain ⟨m, hm, hle⟩ := fold_estab cfg render oracle b f hcf (Horacle b hb) books
      (st0, ⟨0, 0, 0, []⟩, [], []) hb hdistb
    rw [hF1] at hm
    refine ⟨m, ?_, hle⟩
    rw [hstA, lookupFile_filter]
    · exact hm
    · intro e he heq
      show (!((removeObsoleteFiles (normExts cfg.supportedExtensions)
          (fileEntries (st1f.target.map (fun e => e.1))) kept1f).contains e.1)) = true
      rw [heq]
      cases hcon : (removeObsoleteFiles (normExts cfg.supportedExtensions)
          (fileEntries (st1f.target.map (fun e => e.1))) kept1f).contains f with
      | false => rfl
      | true =>
        exfalso
        have hmemr : f ∈ removeObsoleteFiles (normExts cfg.supportedExtensions)
            (fileEntries (st1f.target.map (fun e => e.1))) kept1f :=
          List.mem_of_elem_eq_true hcon
        rw [removeObsolete_eq] at hmemr
        have h2 := (List.mem_filter.mp hmemr).2
        rw [basenameStr_noslash f (Hslash b hb f hcf)] at h2
        have hfkept : f ∈ kept1f := by
          rw [hkept1f]
          exact List.mem_filterMap.mpr ⟨b, hb, hcf⟩
        have hct : kept1f.contains f = true := List.elem_eq_true_of_mem hfkept
        rw [hct] at h2
        simp at h2
  have hskip : ∀ x ∈ books, ∀ g, canonName cfg render x = some g →
      bookNeedsUpdate x.last_modified
        (sync cfg render oracle books st0).state.target g = false := by
    intro x hx g hg
    obtain ⟨m, hm, hle⟩ := hfresh x hx g hg
    unfold bookNeedsUpdate
    rw [hm]
    show decide (x.last_modified > m) = false
    simp only [decide_eq_false_iff_not, gt_iff_lt, not_lt]
    exact hle
  rcases hF2 : books.foldl (processBook cfg render oracle)
      ((sync cfg render oracle books st0).state, ⟨0, 0, 0, []⟩, [], [])
    with ⟨st2f, res2f, kept2f, effs2f⟩
  have hsk := fold_skip_all cfg render oracle books
      ((sync cfg render oracle books st0).state, ⟨0, 0, 0, []⟩, [], []) hskip
  rw [hF2] at hsk
  have hst2 : st2f = (sync cfg render oracle books st0).state := hsk.1
  have heff2 : effs2f = [] := hsk.2
  have hkept2f : kept2f = books.filterMap (canonName cfg render) := by
    have h := fold_kept cfg render oracle books
      ((sync cfg render oracle books st0).state, ⟨0, 0, 0, []⟩, [], [])
    rw [hF2] at h
    simpa using h
  have hrem2 : removeObsoleteFiles (normExts cfg.supportedExtensions)
      (fileEntries (st2f.target.map (fun e => e.1))) kept2f = [] := by
    rw [removeObsolete_eq, findBookFiles_flat]
    rw [List.filter_eq_nil_iff]
    intro p hp
    have hpmem := (List.mem_filter.mp hp).1
    have hpsup := (List.mem_filter.mp hp).2
    obtain ⟨e, he, heq⟩ := List.mem_map.mp hpmem
    rw [hst2, hstA] at he
    have he1 := (List.mem_filter.mp he).1
    have he2 := (List.mem_filter.mp he).2
    intro hcontra
    have hkc : kept2f.contains (basenameStr p) = false := by
      cases hkk : kept2f.contains (basenameStr p) with
      | false => rfl
      | true =>
        rw [hkk] at hcontra
        simp at hcontra
    have hpn1 : p ∈ st1f.target.map (fun e => e.1) := List.mem_map.mpr ⟨e, he1, heq⟩
    have hprem : p ∈ removeObsoleteFiles (normExts cfg.supportedExtensions)
        (fileEntries (st1f.target.map (fun e => e.1))) kept1f := by
      rw [removeObsolete_eq, findBookFiles_flat]
      refine List.mem_filter.mpr ⟨List.mem_filter.mpr ⟨hpn1, hpsup⟩, ?_⟩
      have hk12 : kept1f = kept2f := by rw [hkept1f, hkept2f]
      show (!(kept1f.contains (basenameStr p))) = true
      rw [hk12, hkc]
      rfl
    have heq2 : e.1 = p := heq
    have hcond := he2
    rw [heq2] at hcond
    have hcp : (removeObsoleteFiles (normExts cfg.supportedExtensions)
        (fileEntries (st1f.target.map (fun e => e.1))) kept1f).contains p = true :=
      List.elem_eq_true_of_mem hprem
    rw [hcp] at hcond
    simp at hcond
  rw [sync_effects, hF2]
  show effs2f ++ (removeObsoleteFiles (normExts cfg.supportedExtensions)
      (fileEntries (st2f.target.map (fun e => e.1))) kept2f).map Eff.unlink = []
  rw [heff2, hrem2]
  rfl

/-- C1 counterexample: with a failing export collaborator, the first run
leaves the initial state untouched (so nothing changed between the runs), yet
the second run performs an `exportBook` materialization again. -/
theorem C1_counterexample :
    (sync cfg0 renderNew (fun _ => none) [book1] stEmpty).state = stEmpty ∧
    (sync cfg0 renderNew (fun _ => none) [book1]
        (sync cfg0 renderNew (fun _ => none) [book1] stEmpty).state).effects
      = [Eff.exportBook 1] := by decide

/-- Witness for `C1_second_run_noop`: a concrete one-record library whose
export succeeds at the record's own timestamp. -/
theorem C1_second_run_noop_witness :
    (sync cfg0 renderNew (fun _ => some 5) [book1]
        (sync cfg0 renderNew (fun _ => some 5) [book1] stEmpty).state).effects
      = [] :=
  C1_second_run_noop cfg0 renderNew (fun _ => some 5) [book1] stEmpty
    (by
      intro b hb
      have hb1 : b = book1 := by simpa using hb
      exact ⟨5, rfl, by rw [hb1]; decide⟩)
    (by
      intro b1 h1 b2 h2 f hf1 hf2
      have e1 : b1 = book1 := by simpa using h1
      have e2 : b2 = book1 := by simpa using h2
      rw [e1, e2])
    (by
      intro b hb f hf c hc
      have hb1 : b = book1 := by simpa using hb
      rw [hb1] at hf
      have hcanon : canonName cfg0 renderNew book1 = some "New (1).epub" := by decide
      rw [hcanon] at hf
      have hfval : f = "New (1).epub" := by
        injection hf with h
        exact h.symm
      rw [hfval] at hc
      revert c
      decide)

end KMeta
